import Mathlib

/-!
# Mountain Hawk: diff position mapper and review validator

A shallow embedding of `internal/github/diff.go`, of `PostReview` and its
helpers from `internal/github/review.go`, of `validateReview` and `ReviewPR`
from `internal/reviewer/service.go`, of `validateReviewResponse` from
`internal/llm/ollama.go`, of the methods of `pkg/types/review.go`, and of the
decision to start a review in `internal/github/webhook.go` and
`internal/server/handlers.go`.

Modelling conventions.

* A Go `string` is a `List Char`.  Every string operation the embedded code
  performs (`strings.Split` on a one-byte ASCII separator, `strings.HasPrefix`
  with an ASCII needle, concatenation) acts on ASCII bytes, which never occur
  inside a multi-byte UTF-8 sequence, so the character view and the byte view
  agree.
* A Go `int` is a 64-bit two's-complement integer, as on every 64-bit
  platform.  The new-file line counter
  is seeded from a number read out of the patch text, so its increments are
  wrapped with `wrapInt64`.  The position counter starts at zero and grows by
  at most one per non-empty patch line; a Go string has fewer than `2 ^ 63`
  bytes, so that counter cannot wrap (`position_counter_never_wraps`) and is
  modelled by plain integer addition.
* `nil` and empty slices are both the empty list.
* The getters `GetPatch` and `GetFilename` of `github.CommitFile` return the
  empty string for a missing value; a `CommitFile` is modelled by the two
  strings these getters return.
* Code that talks to GitHub or to the LLM returns, next to its error, the list
  of the calls it made, in order; the answers to these calls are the fields of
  `Collaborators`.  An `error` is its message, `nil` is `none`.  Logging is
  left out.
-/

namespace MountainHawk

/-- A Go string, as its sequence of characters. -/
abbrev GoString := List Char

/-- Two's-complement wrap-around of a mathematical integer to Go's 64-bit `int`. -/
def wrapInt64 (x : Int) : Int :=
  (x + 9223372036854775808) % 18446744073709551616 - 9223372036854775808

/-! ## Library functions used by the code -/

/-- Go's `strings.Split(s, sep)` for a one-character separator: the pieces of
`s` between the occurrences of `sep`; always at least one piece. -/
def Split (sep : Char) : GoString → List GoString
  | [] => [[]]
  | c :: cs =>
    if c = sep then [] :: Split sep cs
    else
      match Split sep cs with
      | [] => [[c]]
      | piece :: pieces => (c :: piece) :: pieces

/-- Go's `strings.HasPrefix(s, p)`. -/
def startsWith (s p : GoString) : Bool :=
  p.isPrefixOf s

/-- The white-space test of Go's `fmt` scanner (`isSpace` in `fmt/scan.go`). -/
def isSpace (r : Char) : Bool :=
  let n := r.toNat
  (0x0009 ≤ n && n ≤ 0x000d) || n = 0x0020 || n = 0x0085 || n = 0x00a0 || n = 0x1680 ||
  (0x2000 ≤ n && n ≤ 0x200a) || (0x2028 ≤ n && n ≤ 0x2029) || n = 0x202f || n = 0x205f ||
  n = 0x3000

/-- The scanner's `SkipSpace` as used by `Sscanf`: white space is skipped, a
newline is a scan error (`none`). -/
def skipSpace : GoString → Option GoString
  | [] => some []
  | r :: rs =>
    if r = '\n' then none
    else if isSpace r then skipSpace rs
    else some (r :: rs)

/-- Value of a string of decimal digits. -/
def decimalValue (ds : GoString) : Nat :=
  ds.foldl (fun n d => 10 * n + (d.toNat - 48)) 0

/-- The conversion `strconv.ParseInt(tok, 10, 64)` of a scanned token of
value `v`: it fails when `v` does not fit in 64 bits, and the scanned
variable then keeps its initial value `0`. -/
def parseInt64OrZero (v : Int) : Int :=
  if -9223372036854775808 ≤ v ∧ v ≤ 9223372036854775807 then v else 0

/-- The scanner's `scanNumber` followed by the conversion: at least one
decimal digit is needed, what follows the digits is left unread. -/
def scanDigits (negative : Bool) (s : GoString) : Int :=
  let digits := s.takeWhile Char.isDigit
  if digits = [] then 0
  else parseInt64OrZero (if negative then -(decimalValue digits : Int) else decimalValue digits)

/-- Go's `fmt.Sscanf(input, "+%d", &v)` with `v` initially `0`: the value of
`v` after the call.  The literal `+` must match; `%d` skips white space,
accepts one optional sign and then needs at least one decimal digit; the token
is converted by `strconv.ParseInt(tok, 10, 64)`, which fails when the value
does not fit in 64 bits.  On any failure `v` keeps its initial value `0`.
The scanner's cap of `2 ^ 30` runes per call is not modelled. -/
def sscanfPlusInt (input : GoString) : Int :=
  match input with
  | '+' :: rest =>
    match skipSpace rest with
    | none => 0
    | some ('+' :: r) => scanDigits false r
    | some ('-' :: r) => scanDigits true r
    | some r => scanDigits false r
  | _ => 0

/-- Go's `%d` rendering of a natural number. -/
def formatNat (n : Nat) : GoString :=
  Nat.toDigits 10 n

/-- Go's `%d` rendering of an `int`. -/
def formatInt (n : Int) : GoString :=
  if n < 0 then '-' :: formatNat n.natAbs else formatNat n.toNat

/-! ## `internal/github/diff.go` -/

/-- The part of `github.CommitFile` the code reads, through its getters. -/
structure CommitFile where
  Filename : GoString
  Patch : GoString
  deriving DecidableEq, Repr

/-- Source: `parseHunkHeader` extracts the new file starting line number from a hunk
header. -/
def parseHunkHeader (hunkHeader : GoString) : Int :=
  let parts := Split ' ' hunkHeader
  if parts.length < 3 then 0
  else
    let newPart := parts.getD 2 []
    if !startsWith newPart ['+'] then 0
    else sscanfPlusInt newPart

/-- The loop of `CalculateDiffPosition` over the remaining lines, with the
current values of `position` and `newLineNumber`. -/
def CalculateDiffPosition.loop (lineNumber : Int) : List GoString → Int → Int → Int
  | [], _, _ => -1
  | line :: rest, position, newLineNumber =>
    if startsWith line ['@', '@'] then
      let newStart := parseHunkHeader line
      let newLineNumber := if newStart > 0 then newStart - 1 else newLineNumber
      CalculateDiffPosition.loop lineNumber rest (position + 1) newLineNumber
    else if startsWith line [' '] || startsWith line ['+'] then
      let newLineNumber := wrapInt64 (newLineNumber + 1)
      let position := position + 1
      if newLineNumber = lineNumber then position
      else CalculateDiffPosition.loop lineNumber rest position newLineNumber
    else if startsWith line ['-'] then
      CalculateDiffPosition.loop lineNumber rest (position + 1) newLineNumber
    else
      CalculateDiffPosition.loop lineNumber rest position newLineNumber

/-- Source: `CalculateDiffPosition` converts a line number to a diff position for the
GitHub API; `-1` when the line is not found in the diff. -/
def CalculateDiffPosition (file : CommitFile) (lineNumber : Int) : Int :=
  if file.Patch = [] then -1
  else CalculateDiffPosition.loop lineNumber (Split '\n' file.Patch) 0 0

/-- The loop of `CalculateDiffPosition` with the `position` counter kept in
64-bit arithmetic as well.  It is used only to justify modelling `position`
by plain addition: on every patch a Go string can hold, it agrees with
`CalculateDiffPosition.loop`. -/
def CalculateDiffPosition.loopInt64 (lineNumber : Int) : List GoString → Int → Int → Int
  | [], _, _ => -1
  | line :: rest, position, newLineNumber =>
    if startsWith line ['@', '@'] then
      let newStart := parseHunkHeader line
      let newLineNumber := if newStart > 0 then newStart - 1 else newLineNumber
      CalculateDiffPosition.loopInt64 lineNumber rest (wrapInt64 (position + 1)) newLineNumber
    else if startsWith line [' '] || startsWith line ['+'] then
      let newLineNumber := wrapInt64 (newLineNumber + 1)
      let position := wrapInt64 (position + 1)
      if newLineNumber = lineNumber then position
      else CalculateDiffPosition.loopInt64 lineNumber rest position newLineNumber
    else if startsWith line ['-'] then
      CalculateDiffPosition.loopInt64 lineNumber rest (wrapInt64 (position + 1)) newLineNumber
    else
      CalculateDiffPosition.loopInt64 lineNumber rest position newLineNumber

/-- The loop of `GetChangedLines` over the remaining lines, with the current
values of `newLineNumber` and `changedLines`. -/
def GetChangedLines.loop : List GoString → Int → List Int → List Int
  | [], _, changedLines => changedLines
  | line :: rest, newLineNumber, changedLines =>
    if startsWith line ['@', '@'] then
      let newStart := parseHunkHeader line
      let newLineNumber := if newStart > 0 then newStart - 1 else newLineNumber
      GetChangedLines.loop rest newLineNumber changedLines
    else if startsWith line [' '] then
      GetChangedLines.loop rest (wrapInt64 (newLineNumber + 1)) changedLines
    else if startsWith line ['+'] then
      let newLineNumber := wrapInt64 (newLineNumber + 1)
      GetChangedLines.loop rest newLineNumber (changedLines ++ [newLineNumber])
    else
      GetChangedLines.loop rest newLineNumber changedLines

/-- Source: `GetChangedLines` returns the line numbers that were changed in the file. -/
def GetChangedLines (file : CommitFile) : List Int :=
  if file.Patch = [] then []
  else GetChangedLines.loop (Split '\n' file.Patch) 0 []

/-- The search loop of `IsLineInDiff` over the changed lines. -/
def IsLineInDiff.loop (lineNumber : Int) : List Int → Bool
  | [] => false
  | line :: rest => if line = lineNumber then true else IsLineInDiff.loop lineNumber rest

/-- Source: `IsLineInDiff` checks if a specific line number is part of the diff. -/
def IsLineInDiff (file : CommitFile) (lineNumber : Int) : Bool :=
  IsLineInDiff.loop lineNumber (GetChangedLines file)

/-! ## `pkg/types/review.go` -/

/-- Source: `GeneralComment` represents overall feedback about the PR. -/
structure GeneralComment where
  Body : GoString
  Severity : GoString
  deriving DecidableEq, Repr

/-- Source: `FileComment` represents line-specific feedback (`CommentType` is the
field `Type` of the source). -/
structure FileComment where
  Path : GoString
  Line : Int
  Body : GoString
  Severity : GoString
  CommentType : GoString
  deriving DecidableEq, Repr

/-- Source: `ReviewResponse` represents the structured response from the LLM. -/
structure ReviewResponse where
  Decision : GoString
  DecisionRationale : GoString
  GeneralComments : List GeneralComment
  FileComments : List FileComment
  Summary : GoString
  deriving DecidableEq, Repr

/-! ## `internal/reviewer/service.go` -/

/-- A Go `map[string]*github.CommitFile`, as its lookup function. -/
abbrev FileMap := GoString → Option CommitFile

/-- The map assignment `fileMap[key] = file`. -/
def FileMap.assign (fileMap : FileMap) (key : GoString) (file : CommitFile) : FileMap :=
  fun k => if k = key then some file else fileMap k

/-- The first loop of `validateReview`: `fileMap[file.GetFilename()] = file`
for each file in turn. -/
def buildFileMap : List CommitFile → FileMap → FileMap
  | [], fileMap => fileMap
  | file :: rest, fileMap => buildFileMap rest (FileMap.assign fileMap file.Filename file)

/-- Go's `%v` rendering of a `[]string`: the elements separated by single
spaces, between square brackets. -/
def formatStrings (xs : List GoString) : GoString :=
  ['['] ++ List.intercalate [' '] xs ++ [']']

/-- The filtering loop of `validateReview` over the remaining comments, with
the current values of `validComments` and `warnings`. -/
def validateReview.loop (fileMap : FileMap) :
    List FileComment → List FileComment → List GoString → List FileComment × List GoString
  | [], validComments, warnings => (validComments, warnings)
  | comment :: rest, validComments, warnings =>
    match fileMap comment.Path with
    | none =>
      validateReview.loop fileMap rest validComments
        (warnings ++ ["comment references non-existent file: ".toList ++ comment.Path])
    | some file =>
      if !IsLineInDiff file comment.Line then
        validateReview.loop fileMap rest validComments
          (warnings ++ ["comment references line not in diff: ".toList ++ comment.Path ++
            [':'] ++ formatInt comment.Line])
      else
        validateReview.loop fileMap rest (validComments ++ [comment]) warnings

/-- The value of the local variable `warnings` of `validateReview` when its
filtering loop ends. -/
def validationWarnings (review : ReviewResponse) (files : List CommitFile) : List GoString :=
  (validateReview.loop (buildFileMap files (fun _ => none)) review.FileComments [] []).2

/-- Source: `validateReview` checks the review for common issues and filters invalid
comments: the review as it is left behind, and the returned error (`none`
for `nil`, otherwise the error's message). -/
def validateReview (review : ReviewResponse) (files : List CommitFile) :
    ReviewResponse × Option GoString :=
  let fileMap := buildFileMap files (fun _ => none)
  let result := validateReview.loop fileMap review.FileComments [] []
  ({ review with FileComments := result.1 },
    if result.2.length > 0 then
      some ("review validation warnings: ".toList ++ formatStrings result.2)
    else none)

/-! ## `pkg/types/review.go`: constants and methods -/

/-- Source: `DecisionApprove`. -/
def DecisionApprove : GoString := "approve".toList

/-- Source: `DecisionRequestChanges`. -/
def DecisionRequestChanges : GoString := "request_changes".toList

/-- Source: `DecisionComment`. -/
def DecisionComment : GoString := "comment".toList

/-- Source: `SeverityInfo`. -/
def SeverityInfo : GoString := "info".toList

/-- Source: `SeverityWarning`. -/
def SeverityWarning : GoString := "warning".toList

/-- Source: `SeverityError`. -/
def SeverityError : GoString := "error".toList

/-- Source: `TypeBug`. -/
def TypeBug : GoString := "bug".toList

/-- Source: `TypeStyle`. -/
def TypeStyle : GoString := "style".toList

/-- Source: `TypePerformance`. -/
def TypePerformance : GoString := "performance".toList

/-- Source: `TypeSecurity`. -/
def TypeSecurity : GoString := "security".toList

/-- Source: `TypeMaintainability`. -/
def TypeMaintainability : GoString := "maintainability".toList

/-- Source: `IsBlockingDecision` returns true if the decision blocks the PR. -/
def IsBlockingDecision (d : GoString) : Bool :=
  decide (d = DecisionRequestChanges)

/-- Source: `IsError` returns true if the severity indicates an error. -/
def IsError (s : GoString) : Bool :=
  decide (s = SeverityError)

/-- The loop of `HasBlockingIssues` over the general comments: `true` when it
returns `true` from inside the loop. -/
def HasBlockingIssues.generalLoop : List GeneralComment → Bool
  | [] => false
  | comment :: rest =>
    if IsError comment.Severity then true else HasBlockingIssues.generalLoop rest

/-- The loop of `HasBlockingIssues` over the file comments: `true` when it
returns `true` from inside the loop. -/
def HasBlockingIssues.fileLoop : List FileComment → Bool
  | [] => false
  | comment :: rest =>
    if IsError comment.Severity then true else HasBlockingIssues.fileLoop rest

/-- Source: `HasBlockingIssues` returns true if the review contains any blocking
issues. -/
def HasBlockingIssues (r : ReviewResponse) : Bool :=
  if IsBlockingDecision r.Decision then true
  else if HasBlockingIssues.generalLoop r.GeneralComments then true
  else if HasBlockingIssues.fileLoop r.FileComments then true
  else false

/-- The loop of `GetErrorComments`, with the current value of `errorComments`. -/
def GetErrorComments.loop : List FileComment → List FileComment → List FileComment
  | [], errorComments => errorComments
  | comment :: rest, errorComments =>
    if IsError comment.Severity then GetErrorComments.loop rest (errorComments ++ [comment])
    else GetErrorComments.loop rest errorComments

/-- Source: `GetErrorComments` returns all error-level comments. -/
def GetErrorComments (r : ReviewResponse) : List FileComment :=
  GetErrorComments.loop r.FileComments []

/-! ## `internal/llm/ollama.go` -/

/-- Source: `validateSeverity` checks if severity is valid (`none` for `nil`,
otherwise the error's message). -/
def validateSeverity (severity : GoString) : Option GoString :=
  if severity = SeverityInfo ∨ severity = SeverityWarning ∨ severity = SeverityError then none
  else some ("invalid severity: ".toList ++ severity)

/-- Source: `validateCommentType` checks if comment type is valid. -/
def validateCommentType (commentType : GoString) : Option GoString :=
  if commentType = TypeBug ∨ commentType = TypeStyle ∨ commentType = TypePerformance ∨
      commentType = TypeSecurity ∨ commentType = TypeMaintainability then none
  else some ("invalid comment type: ".toList ++ commentType)

/-- The loop of `validateReviewResponse` over the general comments, from index
`i` on: the error it returns, if any. -/
def validateReviewResponse.generalLoop : Nat → List GeneralComment → Option GoString
  | _, [] => none
  | i, comment :: rest =>
    match validateSeverity comment.Severity with
    | some err => some ("general comment ".toList ++ formatNat i ++ ": ".toList ++ err)
    | none => validateReviewResponse.generalLoop (i + 1) rest

/-- The loop of `validateReviewResponse` over the file comments, from index
`i` on: the error it returns, if any. -/
def validateReviewResponse.fileLoop : Nat → List FileComment → Option GoString
  | _, [] => none
  | i, comment :: rest =>
    if comment.Path = [] then
      some ("file comment ".toList ++ formatNat i ++ ": missing path".toList)
    else if comment.Line ≤ 0 then
      some ("file comment ".toList ++ formatNat i ++ ": invalid line number ".toList ++
        formatInt comment.Line)
    else
      match validateSeverity comment.Severity with
      | some err => some ("file comment ".toList ++ formatNat i ++ ": ".toList ++ err)
      | none =>
        match validateCommentType comment.CommentType with
        | some err => some ("file comment ".toList ++ formatNat i ++ ": ".toList ++ err)
        | none => validateReviewResponse.fileLoop (i + 1) rest

/-- Source: `validateReviewResponse` ensures the response has valid values
(`none` for `nil`, otherwise the error's message).  The review is only read. -/
def validateReviewResponse (review : ReviewResponse) : Option GoString :=
  if review.Decision = DecisionApprove ∨ review.Decision = DecisionRequestChanges ∨
      review.Decision = DecisionComment then
    match validateReviewResponse.generalLoop 0 review.GeneralComments with
    | some err => some err
    | none => validateReviewResponse.fileLoop 0 review.FileComments
  else some ("invalid decision: ".toList ++ review.Decision)

/-! ## `internal/github/review.go` -/

/-- The fields of `github.DraftReviewComment` that `PostReview` sets. -/
structure DraftReviewComment where
  Path : GoString
  Position : Int
  Body : GoString
  deriving DecidableEq, Repr

/-- The fields of `github.PullRequestReviewRequest` that `PostReview` sets;
`Body` is `none` when the pointer is left `nil`. -/
structure PullRequestReviewRequest where
  Event : GoString
  Comments : List DraftReviewComment
  Body : Option GoString
  deriving DecidableEq, Repr

/-- A call the code makes to one of its collaborators, with its arguments. -/
inductive HostCall where
  | getPRFiles (owner repo : GoString) (prNumber : Int)
  | buildContext (files : List CommitFile)
  | reviewCode (context : GoString)
  | createReview (owner repo : GoString) (prNumber : Int) (request : PullRequestReviewRequest)
  | createIssueComment (owner repo : GoString) (prNumber : Int) (body : GoString)
  deriving DecidableEq, Repr

/-- What the embedded code calls without this development defining it: the
answers of the GitHub client (`GetPRFiles`, `CreateReview`,
`CreateIssueComment`), of the LLM client (`ReviewCode`) and of the context
builder (`BuildContext`), each a success or an error message, and the library
function `strings.Title`.  An `error` is modelled by its message; `none` is
`nil`. -/
structure Collaborators where
  title : GoString → GoString
  getPRFiles : GoString → GoString → Int → Except GoString (List CommitFile)
  buildContext : List CommitFile → Except GoString GoString
  reviewCode : GoString → Except GoString ReviewResponse
  createReview : GoString → GoString → Int → PullRequestReviewRequest → Option GoString
  createIssueComment : GoString → GoString → Int → GoString → Option GoString

/-- Source: `getSeverityEmoji` returns emoji for severity level.  The string
literals are those of the source file, character for character. -/
def getSeverityEmoji (severity : GoString) : GoString :=
  if severity = SeverityError then "ğŸš¨ ".toList
  else if severity = SeverityWarning then "âš ï¸ ".toList
  else if severity = SeverityInfo then "ğŸ’¡ ".toList
  else []

/-- Source: `getTypeEmoji` returns emoji for comment type.  The string literals
are those of the source file, character for character. -/
def getTypeEmoji (commentType : GoString) : GoString :=
  if commentType = TypeBug then "ğŸ› ".toList
  else if commentType = TypeSecurity then "ğŸ”’ ".toList
  else if commentType = TypePerformance then "âš¡ ".toList
  else if commentType = TypeStyle then "ğŸ¨ ".toList
  else if commentType = TypeMaintainability then "ğŸ”§ ".toList
  else []

/-- Source: `formatGeneralComment` formats a general comment with appropriate
emoji. -/
def formatGeneralComment (comment : GeneralComment) : GoString :=
  getSeverityEmoji comment.Severity ++ comment.Body

/-- Source: `formatFileComment` formats a file comment with severity and type
indicators; `title` is `strings.Title`. -/
def formatFileComment (title : GoString → GoString) (comment : FileComment) : GoString :=
  getSeverityEmoji comment.Severity ++ getTypeEmoji comment.CommentType ++ "**".toList ++
    title comment.CommentType ++ "**: ".toList ++ comment.Body

/-- Source: `mapDecisionToEvent` maps review decision to GitHub review event. -/
def mapDecisionToEvent (decision : GoString) : GoString :=
  if decision = DecisionApprove then "APPROVE".toList
  else if decision = DecisionRequestChanges then "REQUEST_CHANGES".toList
  else "COMMENT".toList

/-- The loop of `PostReview` over the general comments, with the current
content of the builder `generalBody`. -/
def PostReview.generalLoop : List GeneralComment → GoString → GoString
  | [], generalBody => generalBody
  | comment :: rest, generalBody =>
    let generalBody := if generalBody.length > 0 then generalBody ++ "\n\n".toList else generalBody
    PostReview.generalLoop rest (generalBody ++ formatGeneralComment comment)

/-- The content of the builder `generalBody` of `PostReview` once the general
comments and the summary have been written. -/
def PostReview.generalBody (review : ReviewResponse) : GoString :=
  let generalBody := PostReview.generalLoop review.GeneralComments []
  if review.Summary ≠ [] then
    let generalBody :=
      if generalBody.length > 0 then generalBody ++ "\n\n---\n\n".toList else generalBody
    generalBody ++ ("**Summary:** ".toList ++ review.Summary)
  else generalBody

/-- The loop of `PostReview` over the file comments, with the current value of
`reviewComments`.  Each iteration has its own `comment`, `position` and
`body` (Go 1.22 loop variables), so the stored pointers keep their values. -/
def PostReview.commentLoop (title : GoString → GoString) (fileMap : FileMap) :
    List FileComment → List DraftReviewComment → List DraftReviewComment
  | [], reviewComments => reviewComments
  | comment :: rest, reviewComments =>
    match fileMap comment.Path with
    | none => PostReview.commentLoop title fileMap rest reviewComments
    | some file =>
      let position := CalculateDiffPosition file comment.Line
      if position = -1 then PostReview.commentLoop title fileMap rest reviewComments
      else
        PostReview.commentLoop title fileMap rest
          (reviewComments ++ [⟨comment.Path, position, formatFileComment title comment⟩])

/-- The value of `reviewRequest` that `PostReview` hands to `CreateReview`. -/
def PostReview.reviewRequest (title : GoString → GoString) (review : ReviewResponse)
    (files : List CommitFile) : PullRequestReviewRequest :=
  let fileMap := buildFileMap files (fun _ => none)
  let generalBody := PostReview.generalBody review
  { Event := mapDecisionToEvent review.Decision
    Comments := PostReview.commentLoop title fileMap review.FileComments []
    Body := if generalBody.length > 0 then some generalBody else none }

/-- Source: `PostReview` posts a structured review to GitHub: the returned error
and the calls made to the GitHub client, in order. -/
def PostReview (host : Collaborators) (owner repo : GoString) (prNumber : Int)
    (review : ReviewResponse) (files : List CommitFile) : Option GoString × List HostCall :=
  let reviewRequest := PostReview.reviewRequest host.title review files
  let generalBody := PostReview.generalBody review
  match host.createReview owner repo prNumber reviewRequest with
  | some err =>
    if generalBody.length > 0 then
      (host.createIssueComment owner repo prNumber generalBody,
        [HostCall.createReview owner repo prNumber reviewRequest,
          HostCall.createIssueComment owner repo prNumber generalBody])
    else (some err, [HostCall.createReview owner repo prNumber reviewRequest])
  | none => (none, [HostCall.createReview owner repo prNumber reviewRequest])

/-! ## `internal/reviewer/service.go`: `ReviewPR` -/

/-- Source: `ReviewPR` performs a complete review of a pull request: the
returned error and the calls made to the collaborators, in order.  `owner`,
`repo` and `prNumber` are what the code reads out of its two arguments. -/
def ReviewPR (host : Collaborators) (owner repo : GoString) (prNumber : Int) :
    Option GoString × List HostCall :=
  match host.getPRFiles owner repo prNumber with
  | Except.error err =>
    (some ("failed to get PR files: ".toList ++ err), [HostCall.getPRFiles owner repo prNumber])
  | Except.ok files =>
    if files.length = 0 then (none, [HostCall.getPRFiles owner repo prNumber])
    else
      match host.buildContext files with
      | Except.error err =>
        (some ("failed to build context: ".toList ++ err),
          [HostCall.getPRFiles owner repo prNumber, HostCall.buildContext files])
      | Except.ok context =>
        match host.reviewCode context with
        | Except.error err =>
          (some ("failed to get LLM review: ".toList ++ err),
            [HostCall.getPRFiles owner repo prNumber, HostCall.buildContext files,
              HostCall.reviewCode context])
        | Except.ok review =>
          let validated := (validateReview review files).1
          let posted := PostReview host owner repo prNumber validated files
          let calls := [HostCall.getPRFiles owner repo prNumber, HostCall.buildContext files,
            HostCall.reviewCode context] ++ posted.2
          match posted.1 with
          | some err => (some ("failed to post review: ".toList ++ err), calls)
          | none => (none, calls)

/-! ## `internal/github/webhook.go` and `internal/server/handlers.go` -/

/-- Source: `ShouldProcessPREvent` determines if a PR event should trigger a
review. -/
def ShouldProcessPREvent (action : GoString) : Bool :=
  if action = "opened".toList ∨ action = "synchronize".toList ∨ action = "reopened".toList then
    true
  else false

/-- Source: `handlePullRequestEvent` processes pull request events; `action` is
`event.GetAction()`.  The result says whether the handler gets past its guard
and starts the goroutine that runs `ReviewPR` (`true`) or returns before
(`false`). -/
def handlePullRequestEvent (action : GoString) : Bool :=
  if action ≠ "opened".toList ∧ action ≠ "synchronize".toList then false
  else true

/-! ## Line classification and the new-file line counter -/

/-- A hunk header: a line beginning with `@@`. -/
def isHunkHeader (line : GoString) : Bool :=
  startsWith line ['@', '@']

/-- A context or addition line: a line beginning with a space or with `+`. -/
def isContentLine (line : GoString) : Bool :=
  startsWith line [' '] || startsWith line ['+']

/-- An addition line: a line beginning with `+`. -/
def isAdditionLine (line : GoString) : Bool :=
  startsWith line ['+']

/-- A deletion line: a line beginning with `-`. -/
def isDeletionLine (line : GoString) : Bool :=
  startsWith line ['-']

/-- The lines that consume a position: hunk headers and content lines
(context, addition, deletion). -/
def isCountedLine (line : GoString) : Bool :=
  isHunkHeader line || isContentLine line || isDeletionLine line

/-- What one patch line does to `newLineNumber` (the same in
`CalculateDiffPosition` and in `GetChangedLines`). -/
def stepLineNumber (newLineNumber : Int) (line : GoString) : Int :=
  if isHunkHeader line then
    if parseHunkHeader line > 0 then parseHunkHeader line - 1 else newLineNumber
  else if isContentLine line then wrapInt64 (newLineNumber + 1)
  else newLineNumber

/-- The value of `newLineNumber` once the lines `ls` have been scanned,
starting from `start`. -/
def lineNumberFrom (start : Int) (ls : List GoString) : Int :=
  ls.foldl stepLineNumber start

/-- The new-file line number that line `j` (0-based) of `lines` receives: the
value of `newLineNumber` once lines `0 .. j` have been scanned. -/
def lineNumberAt (lines : List GoString) (j : Nat) : Int :=
  lineNumberFrom 0 (lines.take (j + 1))

/-- Line `j` of `lines` is a context or addition line whose new-file line
number is `target`, the counter starting from `start`. -/
def MatchesFrom (start : Int) (lines : List GoString) (j : Nat) (target : Int) : Prop :=
  ∃ line, lines[j]? = some line ∧ isContentLine line = true ∧
    lineNumberFrom start (lines.take (j + 1)) = target

/-- Line `j` of `lines` is a context or addition line whose new-file line
number is `target`. -/
def MatchesAt (lines : List GoString) (j : Nat) (target : Int) : Prop :=
  MatchesFrom 0 lines j target

/-- Line `j` is the first context or addition line of `lines` whose new-file
line number is `target`. -/
def FirstMatchAt (lines : List GoString) (j : Nat) (target : Int) : Prop :=
  MatchesAt lines j target ∧ ∀ i, i < j → ¬ MatchesAt lines i target

/-- The number of position-consuming lines among lines `0 .. j` of `lines`. -/
def countedThrough (lines : List GoString) (j : Nat) : Nat :=
  (lines.take (j + 1)).countP isCountedLine

/-- The indices (0-based, ascending) of the addition lines of `lines`. -/
def additionIndices (lines : List GoString) : List Nat :=
  (List.range lines.length).filter (fun j => isAdditionLine (lines.getD j []))

/-- The indices (0-based, ascending) of the context and addition lines of
`lines`. -/
def contentIndices (lines : List GoString) : List Nat :=
  (List.range lines.length).filter (fun j => isContentLine (lines.getD j []))

/-- The new-file line numbers that the context and addition lines of `lines`
receive, in patch order. -/
def contentLineNumbers (lines : List GoString) : List Int :=
  (contentIndices lines).map (lineNumberAt lines)

/-- A hunk header of the form `@@ -a,b +N,M @@`. -/
def hunkHeaderLong (a b N M : Nat) : GoString :=
  "@@ -".toList ++ formatNat a ++ [','] ++ formatNat b ++ " +".toList ++ formatNat N ++ [','] ++
    formatNat M ++ " @@".toList

/-- A hunk header of the form `@@ -a +N @@`. -/
def hunkHeaderShort (a N : Nat) : GoString :=
  "@@ -".toList ++ formatNat a ++ " +".toList ++ formatNat N ++ " @@".toList

/-! ## The validator's decision, in the words of the specification -/

/-- The last file of `files` whose filename is `path`. -/
def lastFileNamed (files : List CommitFile) (path : GoString) : Option CommitFile :=
  files.reverse.find? (fun file => decide (file.Filename = path))

/-- The comment's path is the filename of a PR file, and its line is a changed
line of the last PR file with that filename. -/
def isPostable (files : List CommitFile) (comment : FileComment) : Bool :=
  match lastFileNamed files comment.Path with
  | some file => IsLineInDiff file comment.Line
  | none => false

/-- The comment's path is the filename of some PR file on which its line is a
changed line. -/
def isPostableOnSomeFile (files : List CommitFile) (comment : FileComment) : Bool :=
  files.any (fun file => decide (file.Filename = comment.Path) && IsLineInDiff file comment.Line)

/-- The warning text for a dropped comment: "non-existent file" when no PR
file has the comment's path, "line not in diff" otherwise. -/
def warningFor (files : List CommitFile) (comment : FileComment) : GoString :=
  if files.any (fun file => decide (file.Filename = comment.Path)) then
    "comment references line not in diff: ".toList ++ comment.Path ++ [':'] ++
      formatInt comment.Line
  else
    "comment references non-existent file: ".toList ++ comment.Path

/-- The inline comment a file comment gives rise to: none when no PR file has
its path, or when its line has no position on the last PR file with that
path. -/
def inlineComment (title : GoString → GoString) (files : List CommitFile)
    (comment : FileComment) : Option DraftReviewComment :=
  match lastFileNamed files comment.Path with
  | some file =>
    if CalculateDiffPosition file comment.Line = -1 then none
    else some ⟨comment.Path, CalculateDiffPosition file comment.Line,
      formatFileComment title comment⟩
  | none => none

/-- The comment's path is the filename of some PR file on which its line has a
position. -/
def hasPositionOnSomeFile (files : List CommitFile) (comment : FileComment) : Bool :=
  files.any (fun file =>
    decide (file.Filename = comment.Path) &&
      decide (CalculateDiffPosition file comment.Line ≠ -1))

/-- What is left of a scanned field once leading white space and then one
optional sign have been dropped. -/
def afterSpaceAndSign (rest : GoString) : GoString :=
  match rest.dropWhile isSpace with
  | '+' :: r => r
  | '-' :: r => r
  | r => r

/-- A review with recognised values throughout: the decision is one of
approve, request_changes, comment; every general comment has a severity among
info, warning, error; every file comment has a non-empty path, a line of at
least 1, such a severity, and a type among bug, style, performance, security,
maintainability. -/
def IsValidReview (review : ReviewResponse) : Prop :=
  (review.Decision = "approve".toList ∨ review.Decision = "request_changes".toList ∨
    review.Decision = "comment".toList) ∧
  (∀ c ∈ review.GeneralComments,
    c.Severity = "info".toList ∨ c.Severity = "warning".toList ∨
      c.Severity = "error".toList) ∧
  (∀ c ∈ review.FileComments,
    c.Path ≠ [] ∧ 1 ≤ c.Line ∧
    (c.Severity = "info".toList ∨ c.Severity = "warning".toList ∨
      c.Severity = "error".toList) ∧
    (c.CommentType = "bug".toList ∨ c.CommentType = "style".toList ∨
      c.CommentType = "performance".toList ∨ c.CommentType = "security".toList ∨
      c.CommentType = "maintainability".toList))

/-! ## Concrete inputs -/

/-- The patch of the first worked example: one hunk, four new-file lines. -/
def examplePatch : CommitFile :=
  ⟨"a.go".toList, "@@ -1,3 +1,4 @@\n line1\n+line2\n line3\n line4".toList⟩

/-- A patch with two hunks that both start at new-file line 1. -/
def overlappingHunks : CommitFile :=
  ⟨"a.go".toList, "@@ -1 +1 @@\n+a\n@@ -1 +1 @@\n+b".toList⟩

/-- The patch of the second worked example: a deletion line, then a context
line. -/
def deletionExample : CommitFile :=
  ⟨"a.go".toList, "@@ -1,2 +1,1 @@\n-old line\n context".toList⟩

/-- The lines of `deletionExample` below its hunk header. -/
def deletionExampleBody : List GoString :=
  ["-old line".toList, " context".toList]

/-- A one-hunk patch whose header starts the new file at the largest 64-bit
line number. -/
def overflowingHunk : CommitFile :=
  ⟨"a.go".toList, "@@ -1 +9223372036854775807 @@\n+a\n+b".toList⟩

/-- A file list in which the filename `a.go` occurs twice: first with a patch
that adds line 1, then with an empty patch. -/
def duplicateFiles : List CommitFile :=
  [⟨"a.go".toList, "@@ -0,0 +1 @@\n+x".toList⟩, ⟨"a.go".toList, []⟩]

/-- A review with a single file comment, on line 1 of `a.go`. -/
def oneCommentReview : ReviewResponse :=
  { Decision := "comment".toList
    DecisionRationale := "minor".toList
    GeneralComments := []
    FileComments := [⟨"a.go".toList, 1, "note".toList, "info".toList, "style".toList⟩]
    Summary := [] }

/-- A review with three file comments: one on a file that is not in the PR,
one on a line of `a.go` that the example patch does not add, and one on the
line it adds. -/
def mixedReview : ReviewResponse :=
  { Decision := "comment".toList
    DecisionRationale := "minor".toList
    GeneralComments := []
    FileComments :=
      [⟨"missing.go".toList, 1, "x".toList, "info".toList, "style".toList⟩,
       ⟨"a.go".toList, 7, "y".toList, "info".toList, "bug".toList⟩,
       ⟨"a.go".toList, 2, "z".toList, "warning".toList, "bug".toList⟩]
    Summary := [] }

/-- A review with two general comments and a summary. -/
def twoNotesReview : ReviewResponse :=
  { Decision := "approve".toList
    DecisionRationale := "fine".toList
    GeneralComments := [⟨"Nice work".toList, "info".toList⟩, ⟨"Fix the tests".toList, "error".toList⟩]
    FileComments := []
    Summary := "Looks good".toList }

/-- The example patch with the deletion line `-old` inserted after its second
line. -/
def insertedDeletion : CommitFile :=
  ⟨"a.go".toList, "@@ -1,3 +1,4 @@\n line1\n-old\n+line2\n line3\n line4".toList⟩

/-- The example patch followed by the `\ No newline at end of file` marker. -/
def withNoNewlineMarker : CommitFile :=
  ⟨"a.go".toList,
    "@@ -1,3 +1,4 @@\n line1\n+line2\n line3\n line4\n\\ No newline at end of file".toList⟩

/-- A hunk header whose third field is `+`, a tab, and then `5`. -/
def tabbedHeader : GoString := "@@ -1 +\t5 @@".toList

/-- A patch made of `tabbedHeader` and one addition line. -/
def tabbedHeaderPatch : CommitFile := ⟨"a.go".toList, "@@ -1 +\t5 @@\n+a".toList⟩

/-- The patch `tabbedHeaderPatch` without its header. -/
def headerlessPatch : CommitFile := ⟨"a.go".toList, "+a".toList⟩

/-- The hunk header `@@ -1,3 +0,0 @@`, whose new-file start is zero. -/
def zeroStartHeader : GoString := "@@ -1,3 +0,0 @@".toList

/-- A review whose decision is the unrecognised value `reject`. -/
def rejectDecisionReview : ReviewResponse :=
  { Decision := "reject".toList
    DecisionRationale := "no".toList
    GeneralComments := []
    FileComments := []
    Summary := [] }

/-- A patch of two hunks with three addition lines, whose six content lines
are numbered 1, 2, 3 and 11, 12, 13. -/
def twoHunkAdditions : CommitFile :=
  ⟨"a.go".toList,
    "@@ -1,2 +1,3 @@\n a\n+b\n c\n@@ -10,2 +11,3 @@\n x\n+y\n-z\n+w".toList⟩

/-- A patch whose second hunk header has the new-file start 0. -/
def restartAtZero : CommitFile :=
  ⟨"a.go".toList, "@@ -1 +5 @@\n+a\n@@ -1,3 +0,0 @@\n+b".toList⟩

/-! ## Basic facts -/

theorem startsWith_two_at_not_content (line : GoString)
    (h : startsWith line ['@', '@'] = true) : isContentLine line = false := by
  cases line with
  | nil => simp [startsWith, List.isPrefixOf] at h
  | cons c cs =>
    simp only [startsWith, List.isPrefixOf, Bool.and_eq_true, beq_iff_eq] at h
    have hc : c = '@' := h.1.symm
    subst hc
    simp [isContentLine, startsWith, List.isPrefixOf]

theorem matchesFrom_zero_iff (start : Int) (line : GoString) (rest : List GoString)
    (target : Int) :
    MatchesFrom start (line :: rest) 0 target ↔
      (isContentLine line = true ∧ stepLineNumber start line = target) := by
  simp [MatchesFrom, lineNumberFrom]

theorem matchesFrom_succ_iff (start : Int) (line : GoString) (rest : List GoString)
    (j : Nat) (target : Int) :
    MatchesFrom start (line :: rest) (j + 1) target ↔
      MatchesFrom (stepLineNumber start line) rest j target := by
  simp [MatchesFrom, lineNumberFrom]

/-- One iteration of the `CalculateDiffPosition` loop, in terms of the line
classification. -/
theorem calc_loop_cons (target : Int) (line : GoString) (rest : List GoString)
    (position newLineNumber : Int) :
    CalculateDiffPosition.loop target (line :: rest) position newLineNumber =
      if isContentLine line = true ∧ stepLineNumber newLineNumber line = target then
        position + 1
      else
        CalculateDiffPosition.loop target rest
          (position + if isCountedLine line then 1 else 0)
          (stepLineNumber newLineNumber line) := by
  by_cases hh : startsWith line ['@', '@'] = true
  · have hc := startsWith_two_at_not_content line hh
    simp [CalculateDiffPosition.loop, hh, hc, stepLineNumber, isHunkHeader, isCountedLine]
  · have hc : isContentLine line = (startsWith line [' '] || startsWith line ['+']) := rfl
    by_cases h1 : (startsWith line [' '] || startsWith line ['+']) = true
    · by_cases h2 : wrapInt64 (newLineNumber + 1) = target
      · simp [CalculateDiffPosition.loop, hh, h1, hc, stepLineNumber, isHunkHeader, h2]
      · simp [CalculateDiffPosition.loop, hh, h1, hc, stepLineNumber, isHunkHeader, h2,
          isCountedLine]
    · by_cases h3 : startsWith line ['-'] = true
      · simp [CalculateDiffPosition.loop, hh, h1, hc, stepLineNumber, isHunkHeader, h3,
          isCountedLine, isDeletionLine]
      · simp [CalculateDiffPosition.loop, hh, h1, hc, stepLineNumber, isHunkHeader, h3,
          isCountedLine, isDeletionLine]

/-- The loop either finds the first matching line and returns the number of
counted lines up to it (added to the starting position), or finds no match
and returns `-1`. -/
theorem calc_loop_spec (target : Int) (lines : List GoString) :
    ∀ (position newLineNumber : Int),
      (CalculateDiffPosition.loop target lines position newLineNumber = -1 ∧
        ∀ j, ¬ MatchesFrom newLineNumber lines j target) ∨
      (∃ j, MatchesFrom newLineNumber lines j target ∧
        (∀ i, i < j → ¬ MatchesFrom newLineNumber lines i target) ∧
        CalculateDiffPosition.loop target lines position newLineNumber =
          position + ((lines.take (j + 1)).countP isCountedLine : Nat)) := by
  induction lines with
  | nil =>
    intro position newLineNumber
    left
    refine ⟨rfl, ?_⟩
    intro j h
    obtain ⟨line, hl, _⟩ := h
    simp at hl
  | cons line rest ih =>
    intro position newLineNumber
    rw [calc_loop_cons]
    by_cases hm : isContentLine line = true ∧ stepLineNumber newLineNumber line = target
    · right
      refine ⟨0, (matchesFrom_zero_iff _ _ _ _).2 hm, ?_, ?_⟩
      · intro i hi
        omega
      · have hcl : isCountedLine line = true := by simp [isCountedLine, hm.1]
        simp [hm, hcl]
    · rw [if_neg hm]
      rcases ih (position + if isCountedLine line then 1 else 0)
          (stepLineNumber newLineNumber line) with ⟨hres, hno⟩ | ⟨j, hj, hfirst, hres⟩
      · left
        refine ⟨hres, ?_⟩
        intro j
        cases j with
        | zero => rw [matchesFrom_zero_iff]; exact hm
        | succ j => rw [matchesFrom_succ_iff]; exact hno j
      · right
        refine ⟨j + 1, (matchesFrom_succ_iff _ _ _ _ _).2 hj, ?_, ?_⟩
        · intro i hi
          cases i with
          | zero => rw [matchesFrom_zero_iff]; exact hm
          | succ i =>
            rw [matchesFrom_succ_iff]
            exact hfirst i (by omega)
        · rw [hres, List.take_succ_cons, List.countP_cons]
          by_cases hcl : isCountedLine line = true
          · simp [hcl]; ring
          · simp [hcl]

theorem calc_eq_loop (file : CommitFile) (target : Int) :
    CalculateDiffPosition file target =
      CalculateDiffPosition.loop target (Split '\n' file.Patch) 0 0 := by
  unfold CalculateDiffPosition
  split
  · next h => rw [h]; rfl
  · rfl

/-- The specification of `CalculateDiffPosition` on the split patch. -/
theorem calc_spec (file : CommitFile) (target : Int) :
    (CalculateDiffPosition file target = -1 ∧
      ∀ j, ¬ MatchesAt (Split '\n' file.Patch) j target) ∨
    (∃ j, FirstMatchAt (Split '\n' file.Patch) j target ∧
      CalculateDiffPosition file target = (countedThrough (Split '\n' file.Patch) j : Int)) := by
  rw [calc_eq_loop]
  rcases calc_loop_spec target (Split '\n' file.Patch) 0 0 with h | ⟨j, hj, hfirst, hres⟩
  · exact Or.inl h
  · exact Or.inr ⟨j, ⟨hj, hfirst⟩, by rw [hres]; simp [countedThrough]⟩

theorem countedThrough_pos_of_match (lines : List GoString) (j : Nat) (target : Int)
    (h : MatchesAt lines j target) : 1 ≤ countedThrough lines j := by
  obtain ⟨line, hl, hc, _⟩ := h
  have hmem : line ∈ lines.take (j + 1) := by
    rw [List.mem_iff_getElem?]
    refine ⟨j, ?_⟩
    rw [List.getElem?_take_of_lt (by omega)]
    exact hl
  have : 0 < (lines.take (j + 1)).countP isCountedLine := by
    rw [List.countP_pos_iff]
    exact ⟨line, hmem, by simp [isCountedLine, hc]⟩
  exact this

theorem countedThrough_all_counted (lines : List GoString) (j : Nat)
    (hj : j < lines.length) (hall : ∀ line ∈ lines, isCountedLine line = true) :
    countedThrough lines j = j + 1 := by
  unfold countedThrough
  rw [List.countP_eq_length.2]
  · rw [List.length_take]; omega
  · intro line hl
    exact hall line (List.mem_of_mem_take hl)

theorem matchesAt_lt_length (lines : List GoString) (j : Nat) (target : Int)
    (h : MatchesAt lines j target) : j < lines.length := by
  obtain ⟨line, hl, _, _⟩ := h
  exact (List.getElem?_eq_some_iff.1 hl).1

/-! ## `GetChangedLines` -/

theorem isAddition_isContent (line : GoString) (h : isAdditionLine line = true) :
    isContentLine line = true := by
  simp only [isAdditionLine] at h
  simp [isContentLine, h]

theorem isContent_not_header (line : GoString) (h : isContentLine line = true) :
    isHunkHeader line = false := by
  by_contra hh
  have := startsWith_two_at_not_content line (by simpa [isHunkHeader] using hh)
  rw [h] at this
  exact Bool.noConfusion this

/-- One iteration of the `GetChangedLines` loop, in terms of the line
classification. -/
theorem changed_loop_cons (line : GoString) (rest : List GoString) (newLineNumber : Int)
    (changedLines : List Int) :
    GetChangedLines.loop (line :: rest) newLineNumber changedLines =
      GetChangedLines.loop rest (stepLineNumber newLineNumber line)
        (if isAdditionLine line then changedLines ++ [stepLineNumber newLineNumber line]
          else changedLines) := by
  by_cases hh : startsWith line ['@', '@'] = true
  · have hc := startsWith_two_at_not_content line hh
    have ha : isAdditionLine line = false := by
      by_contra ha
      rw [isAddition_isContent line (by simpa using ha)] at hc
      exact Bool.noConfusion hc
    simp [GetChangedLines.loop, hh, ha, stepLineNumber, isHunkHeader]
  · by_cases h1 : startsWith line [' '] = true
    · have ha : isAdditionLine line = false := by
        cases line with
        | nil => simp [startsWith, List.isPrefixOf] at h1
        | cons c cs =>
          simp only [startsWith, List.isPrefixOf, Bool.and_eq_true, beq_iff_eq] at h1
          have hc' : c = ' ' := h1.1.symm
          subst hc'
          simp [isAdditionLine, startsWith, List.isPrefixOf]
      simp [GetChangedLines.loop, hh, h1, ha, stepLineNumber, isHunkHeader, isContentLine]
    · by_cases h2 : startsWith line ['+'] = true
      · simp [GetChangedLines.loop, hh, h1, h2, stepLineNumber, isHunkHeader, isContentLine,
          isAdditionLine]
      · simp [GetChangedLines.loop, hh, h1, h2, stepLineNumber, isHunkHeader, isContentLine,
          isAdditionLine]

theorem range_succ_filter_map {β : Type} (n : Nat) (q : Nat → Bool) (g : Nat → β) :
    ((List.range (n + 1)).filter q).map g =
      (if q 0 then [g 0] else []) ++
        ((List.range n).filter (fun j => q (j + 1))).map (fun j => g (j + 1)) := by
  rw [List.range_succ_eq_map, List.filter_cons, List.filter_map]
  by_cases h : q 0 = true
  · simp [h, Function.comp_def]
  · simp [h, Function.comp_def]

/-- The loop appends, for every addition line in order, the value the counter
has once that line has been scanned. -/
theorem changed_loop_spec (lines : List GoString) :
    ∀ (newLineNumber : Int) (changedLines : List Int),
      GetChangedLines.loop lines newLineNumber changedLines =
        changedLines ++
          ((List.range lines.length).filter (fun j => isAdditionLine (lines.getD j []))).map
            (fun j => lineNumberFrom newLineNumber (lines.take (j + 1))) := by
  induction lines with
  | nil => intro n acc; simp [GetChangedLines.loop]
  | cons line rest ih =>
    intro n acc
    rw [changed_loop_cons, ih, List.length_cons, range_succ_filter_map]
    by_cases ha : isAdditionLine line = true
    · simp [ha, lineNumberFrom]
    · simp [ha, lineNumberFrom]

theorem changed_loop_length (lines : List GoString) :
    ∀ (newLineNumber : Int) (changedLines : List Int),
      (GetChangedLines.loop lines newLineNumber changedLines).length =
        changedLines.length + lines.countP isAdditionLine := by
  induction lines with
  | nil => intro n acc; simp [GetChangedLines.loop]
  | cons line rest ih =>
    intro n acc
    rw [changed_loop_cons, ih, List.countP_cons]
    by_cases ha : isAdditionLine line = true
    · simp [ha]; ring
    · simp [ha]

theorem changed_eq_loop (file : CommitFile) :
    GetChangedLines file = GetChangedLines.loop (Split '\n' file.Patch) 0 [] := by
  unfold GetChangedLines
  split
  · next h => rw [h]; rfl
  · rfl

theorem changed_eq_map (file : CommitFile) :
    GetChangedLines file =
      (additionIndices (Split '\n' file.Patch)).map (lineNumberAt (Split '\n' file.Patch)) := by
  rw [changed_eq_loop, changed_loop_spec]
  rfl

theorem isLineInDiff_loop_iff (lineNumber : Int) (changedLines : List Int) :
    IsLineInDiff.loop lineNumber changedLines = true ↔ lineNumber ∈ changedLines := by
  induction changedLines with
  | nil => simp [IsLineInDiff.loop]
  | cons line rest ih =>
    by_cases h : line = lineNumber
    · simp [IsLineInDiff.loop, h]
    · have h' : ¬ lineNumber = line := fun e => h e.symm
      simp [IsLineInDiff.loop, h, h', ih]

/-! ## The counter inside one hunk -/

theorem wrapInt64_range (x : Int) :
    -9223372036854775808 ≤ wrapInt64 x ∧ wrapInt64 x ≤ 9223372036854775807 := by
  unfold wrapInt64
  omega

theorem wrapInt64_of_range (x : Int) (h1 : -9223372036854775808 ≤ x)
    (h2 : x ≤ 9223372036854775807) : wrapInt64 x = x := by
  unfold wrapInt64
  omega

theorem wrapInt64_add (x y : Int) : wrapInt64 (wrapInt64 x + y) = wrapInt64 (x + y) := by
  unfold wrapInt64
  omega

theorem parseInt64OrZero_range (v : Int) :
    -9223372036854775808 ≤ parseInt64OrZero v ∧ parseInt64OrZero v ≤ 9223372036854775807 := by
  unfold parseInt64OrZero
  split
  · next h => exact h
  · omega

theorem scanDigits_range (negative : Bool) (s : GoString) :
    -9223372036854775808 ≤ scanDigits negative s ∧
      scanDigits negative s ≤ 9223372036854775807 := by
  unfold scanDigits
  simp only
  split
  · omega
  · exact parseInt64OrZero_range _

theorem sscanfPlusInt_range (input : GoString) :
    -9223372036854775808 ≤ sscanfPlusInt input ∧ sscanfPlusInt input ≤ 9223372036854775807 := by
  unfold sscanfPlusInt
  split
  · split
    · omega
    · exact scanDigits_range _ _
    · exact scanDigits_range _ _
    · exact scanDigits_range _ _
  · omega

theorem parseHunkHeader_range (hunkHeader : GoString) :
    -9223372036854775808 ≤ parseHunkHeader hunkHeader ∧
      parseHunkHeader hunkHeader ≤ 9223372036854775807 := by
  unfold parseHunkHeader
  simp only
  split
  · omega
  · split
    · omega
    · exact sscanfPlusInt_range _

/-- Across lines none of which resets the counter, the counter advances by
the number of context and addition lines, in 64-bit arithmetic. -/
theorem lineNumberFrom_no_reset (mid : List GoString) :
    ∀ (start : Int),
      (∀ h ∈ mid, isHunkHeader h = true → parseHunkHeader h ≤ 0) →
      lineNumberFrom (wrapInt64 start) mid =
        wrapInt64 (start + (mid.countP isContentLine : Nat)) := by
  induction mid with
  | nil => intro start _; simp [lineNumberFrom]
  | cons line rest ih =>
    intro start hno
    have hrest : ∀ h ∈ rest, isHunkHeader h = true → parseHunkHeader h ≤ 0 :=
      fun h hh => hno h (List.mem_cons_of_mem _ hh)
    have hstep : lineNumberFrom (wrapInt64 start) (line :: rest) =
        lineNumberFrom (stepLineNumber (wrapInt64 start) line) rest := by
      simp [lineNumberFrom]
    rw [hstep, List.countP_cons]
    by_cases hh : isHunkHeader line = true
    · have hp := hno line (List.mem_cons_self _ _) hh
      have hc : isContentLine line = false :=
        startsWith_two_at_not_content line (by simpa [isHunkHeader] using hh)
      have hs : stepLineNumber (wrapInt64 start) line = wrapInt64 start := by
        simp [stepLineNumber, hh, not_lt.2 hp]
      rw [hs, ih start hrest]
      simp [hc]
    · by_cases hc : isContentLine line = true
      · have hs : stepLineNumber (wrapInt64 start) line = wrapInt64 (start + 1) := by
          simp [stepLineNumber, hh, hc, wrapInt64_add]
        rw [hs, ih (start + 1) hrest]
        simp only [hc, if_true]
        congr 1
        push_cast
        ring
      · have hs : stepLineNumber (wrapInt64 start) line = wrapInt64 start := by
          simp [stepLineNumber, hh, hc]
        rw [hs, ih start hrest]
        simp [hc]

theorem lineNumberFrom_append (start : Int) (xs ys : List GoString) :
    lineNumberFrom start (xs ++ ys) = lineNumberFrom (lineNumberFrom start xs) ys := by
  simp [lineNumberFrom, List.foldl_append]

/-- The closed form of the line number of a context or addition line inside a
hunk: the hunk's start plus the number of context and addition lines between
the header and the line. -/
theorem lineNumberAt_in_hunk (pre : List GoString) (hdr : GoString) (mid : List GoString)
    (line : GoString) (post : List GoString)
    (hh : isHunkHeader hdr = true) (hpos : 0 < parseHunkHeader hdr)
    (hmid : ∀ h ∈ mid, isHunkHeader h = true → parseHunkHeader h ≤ 0)
    (hline : isContentLine line = true) :
    lineNumberAt (pre ++ hdr :: (mid ++ line :: post)) (pre.length + 1 + mid.length) =
      wrapInt64 (parseHunkHeader hdr + (mid.countP isContentLine : Nat)) := by
  have htake : (pre ++ hdr :: (mid ++ line :: post)).take (pre.length + 1 + mid.length + 1) =
      pre ++ hdr :: (mid ++ [line]) := by
    have e : pre ++ hdr :: (mid ++ line :: post) = (pre ++ hdr :: (mid ++ [line])) ++ post := by
      simp
    rw [e, List.take_left']
    simp
    omega
  unfold lineNumberAt
  rw [htake, lineNumberFrom_append]
  have hcons : lineNumberFrom (lineNumberFrom 0 pre) (hdr :: (mid ++ [line])) =
      lineNumberFrom (parseHunkHeader hdr - 1) (mid ++ [line]) := by
    simp [lineNumberFrom, stepLineNumber, hh, hpos]
  have hr := parseHunkHeader_range hdr
  rw [hcons, ← wrapInt64_of_range (parseHunkHeader hdr - 1) (by omega) (by omega),
    lineNumberFrom_no_reset]
  · congr 1
    simp [List.countP_append, hline]
  · intro h hmem
    rw [List.mem_append] at hmem
    rcases hmem with hm | hm
    · exact hmid h hm
    · intro hhh
      rw [List.mem_singleton] at hm
      subst hm
      rw [isContent_not_header h hline] at hhh
      exact Bool.noConfusion hhh

theorem mem_additionIndices (lines : List GoString) (j : Nat) :
    j ∈ additionIndices lines ↔ ∃ line, lines[j]? = some line ∧ isAdditionLine line = true := by
  unfold additionIndices
  rw [List.mem_filter, List.mem_range]
  constructor
  · rintro ⟨hj, ha⟩
    refine ⟨lines[j], List.getElem?_eq_getElem hj, ?_⟩
    simpa [List.getD_eq_getElem?_getD, List.getElem?_eq_getElem hj] using ha
  · rintro ⟨line, hl, ha⟩
    obtain ⟨hj, rfl⟩ := List.getElem?_eq_some_iff.1 hl
    refine ⟨hj, ?_⟩
    simpa [List.getD_eq_getElem?_getD, List.getElem?_eq_getElem hj] using ha

theorem additionIndices_pairwise (lines : List GoString) :
    (additionIndices lines).Pairwise (· < ·) :=
  List.Pairwise.sublist (List.filter_sublist _) (List.pairwise_lt_range _)

/-! ## The position counter does not overflow -/

theorem Split_nonempty_pieces_le (sep : Char) (s : GoString) :
    (Split sep s).countP (fun piece => !piece.isEmpty) ≤ s.length := by
  induction s with
  | nil => simp [Split]
  | cons c cs ih =>
    unfold Split
    by_cases hc : c = sep
    · simp only [hc, if_true, List.countP_cons, List.isEmpty_nil, Bool.not_true,
        Bool.false_eq_true, if_false, List.length_cons]
      omega
    · simp only [hc, if_false]
      cases hs : Split sep cs with
      | nil => simp
      | cons piece pieces =>
        rw [hs] at ih
        simp only [List.countP_cons, List.length_cons] at ih ⊢
        have : (if (!(c :: piece).isEmpty) = true then 1 else 0) = 1 := by simp
        rw [this]
        omega

/-- With fewer than `2 ^ 63` non-empty lines still to come, wrapping the
position counter changes nothing. -/
theorem loopInt64_eq_loop (target : Int) (lines : List GoString) :
    ∀ (position newLineNumber : Int), 0 ≤ position →
      position + (lines.countP (fun piece => !piece.isEmpty) : Nat) ≤ 9223372036854775807 →
      CalculateDiffPosition.loopInt64 target lines position newLineNumber =
        CalculateDiffPosition.loop target lines position newLineNumber := by
  induction lines with
  | nil => intro _ _ _ _; rfl
  | cons line rest ih =>
    intro position n h0 hb
    rw [List.countP_cons] at hb
    cases line with
    | nil =>
      have e1 : CalculateDiffPosition.loopInt64 target ([] :: rest) position n =
          CalculateDiffPosition.loopInt64 target rest position n := by
        simp [CalculateDiffPosition.loopInt64, startsWith, List.isPrefixOf]
      have e2 : CalculateDiffPosition.loop target ([] :: rest) position n =
          CalculateDiffPosition.loop target rest position n := by
        simp [CalculateDiffPosition.loop, startsWith, List.isPrefixOf]
      rw [e1, e2]
      exact ih position n h0 (by simpa using hb)
    | cons c cs =>
      have hk : (if (!(c :: cs).isEmpty) = true then 1 else 0) = 1 := by simp
      rw [hk] at hb
      push_cast at hb
      have hw : wrapInt64 (position + 1) = position + 1 :=
        wrapInt64_of_range _ (by omega) (by omega)
      have hrest : ∀ m : Int,
          CalculateDiffPosition.loopInt64 target rest (position + 1) m =
            CalculateDiffPosition.loop target rest (position + 1) m :=
        fun m => ih (position + 1) m (by omega) (by omega)
      have hrest0 : ∀ m : Int,
          CalculateDiffPosition.loopInt64 target rest position m =
            CalculateDiffPosition.loop target rest position m :=
        fun m => ih position m h0 (by omega)
      unfold CalculateDiffPosition.loopInt64 CalculateDiffPosition.loop
      simp only [hw, hrest, hrest0]

/-- On a patch of fewer than `2 ^ 63` characters, which every Go string is,
the position counter of `CalculateDiffPosition` never wraps. -/
theorem position_counter_never_wraps (file : CommitFile) (target : Int)
    (hlen : file.Patch.length < 9223372036854775808) :
    CalculateDiffPosition.loopInt64 target (Split '\n' file.Patch) 0 0 =
      CalculateDiffPosition.loop target (Split '\n' file.Patch) 0 0 := by
  apply loopInt64_eq_loop target _ 0 0 (le_refl 0)
  have := Split_nonempty_pieces_le '\n' file.Patch
  omega

/-! ## Positions of the changed lines -/

theorem mem_contentIndices (lines : List GoString) (j : Nat) :
    j ∈ contentIndices lines ↔ ∃ line, lines[j]? = some line ∧ isContentLine line = true := by
  unfold contentIndices
  rw [List.mem_filter, List.mem_range]
  constructor
  · rintro ⟨hj, ha⟩
    refine ⟨lines[j], List.getElem?_eq_getElem hj, ?_⟩
    simpa [List.getD_eq_getElem?_getD, List.getElem?_eq_getElem hj] using ha
  · rintro ⟨line, hl, ha⟩
    obtain ⟨hj, rfl⟩ := List.getElem?_eq_some_iff.1 hl
    refine ⟨hj, ?_⟩
    simpa [List.getD_eq_getElem?_getD, List.getElem?_eq_getElem hj] using ha

theorem matchesAt_iff (lines : List GoString) (j : Nat) (target : Int) :
    MatchesAt lines j target ↔ j ∈ contentIndices lines ∧ lineNumberAt lines j = target := by
  rw [mem_contentIndices]
  unfold MatchesAt MatchesFrom lineNumberAt
  constructor
  · rintro ⟨line, hl, hc, hn⟩
    exact ⟨⟨line, hl, hc⟩, hn⟩
  · rintro ⟨⟨line, hl, hc⟩, hn⟩
    exact ⟨line, hl, hc, hn⟩

/-- When the content lines carry pairwise distinct numbers, the position of a
content line's own number is the count of position-consuming lines through
that very line. -/
theorem calc_of_distinct (file : CommitFile)
    (hd : (contentLineNumbers (Split '\n' file.Patch)).Nodup) (j : Nat)
    (hj : j ∈ contentIndices (Split '\n' file.Patch)) :
    CalculateDiffPosition file (lineNumberAt (Split '\n' file.Patch) j) =
      (countedThrough (Split '\n' file.Patch) j : Int) := by
  have hm : MatchesAt (Split '\n' file.Patch) j (lineNumberAt (Split '\n' file.Patch) j) :=
    (matchesAt_iff _ _ _).2 ⟨hj, rfl⟩
  rcases calc_spec file (lineNumberAt (Split '\n' file.Patch) j) with
    ⟨_, hno⟩ | ⟨i, hfirst, hres⟩
  · exact absurd hm (hno j)
  · have hi := (matchesAt_iff _ _ _).1 hfirst.1
    have hij : i = j := List.inj_on_of_nodup_map hd hi.1 hj hi.2
    rw [hres, hij]

theorem countedThrough_lt (lines : List GoString) (i j : Nat) (hij : i < j) (line : GoString)
    (hl : lines[j]? = some line) (hc : isCountedLine line = true) :
    countedThrough lines i < countedThrough lines j := by
  unfold countedThrough
  have h1 : (lines.take (i + 1)).countP isCountedLine ≤ (lines.take j).countP isCountedLine := by
    have e : lines.take (i + 1) = (lines.take j).take (i + 1) := by
      rw [List.take_take, Nat.min_eq_left (by omega)]
    rw [e]
    exact List.Sublist.countP_le _ (List.take_sublist _ _)
  have h2 : (lines.take (j + 1)).countP isCountedLine =
      (lines.take j).countP isCountedLine + 1 := by
    rw [List.take_succ, hl, List.countP_append]
    simp [hc]
  omega

/-! ## Hunk headers and the scanner -/

theorem digitChar_facts : ∀ m, m < 10 →
    ((Nat.digitChar m).isDigit = true ∧ (Nat.digitChar m).toNat - 48 = m ∧
      Nat.digitChar m ≠ ' ' ∧ Nat.digitChar m ≠ '+' ∧ Nat.digitChar m ≠ '-' ∧
      Nat.digitChar m ≠ '\n' ∧ isSpace (Nat.digitChar m) = false) := by
  decide

theorem decimalValue_append (pre : GoString) (d : Char) :
    decimalValue (pre ++ [d]) = 10 * decimalValue pre + (d.toNat - 48) := by
  simp [decimalValue, List.foldl_append]

theorem toDigitsCore_spec : ∀ (fuel n : Nat) (ds : List Char), n < fuel →
    ∃ pre, Nat.toDigitsCore 10 fuel n ds = pre ++ ds ∧ pre ≠ [] ∧
      (∀ c ∈ pre, ∃ m, m < 10 ∧ c = Nat.digitChar m) ∧ decimalValue pre = n := by
  intro fuel
  induction fuel with
  | zero => intro n ds h; omega
  | succ fuel ih =>
    intro n ds h
    unfold Nat.toDigitsCore
    simp only
    by_cases h0 : n / 10 = 0
    · rw [if_pos h0]
      refine ⟨[Nat.digitChar (n % 10)], rfl, by simp, ?_, ?_⟩
      · intro c hc
        rw [List.mem_singleton] at hc
        exact ⟨n % 10, Nat.mod_lt _ (by decide), hc⟩
      · have := (digitChar_facts (n % 10) (Nat.mod_lt _ (by decide))).2.1
        simp [decimalValue, this]
        omega
    · rw [if_neg h0]
      obtain ⟨pre, he, hne, hall, hval⟩ := ih (n / 10) (Nat.digitChar (n % 10) :: ds) (by omega)
      refine ⟨pre ++ [Nat.digitChar (n % 10)], by rw [he]; simp, by simp, ?_, ?_⟩
      · intro c hc
        rw [List.mem_append, List.mem_singleton] at hc
        rcases hc with hc | hc
        · exact hall c hc
        · exact ⟨n % 10, Nat.mod_lt _ (by decide), hc⟩
      · have := (digitChar_facts (n % 10) (Nat.mod_lt _ (by decide))).2.1
        rw [decimalValue_append, hval, this]
        omega

theorem Split_append_sep (sep : Char) (xs ys : GoString) (h : sep ∉ xs) :
    Split sep (xs ++ sep :: ys) = xs :: Split sep ys := by
  induction xs with
  | nil => simp [Split]
  | cons c cs ih =>
    have hc : c ≠ sep := fun e => h (by simp [e])
    have hcs : sep ∉ cs := fun e => h (List.mem_cons_of_mem _ e)
    simp [Split, hc, ih hcs]


theorem formatNat_spec (n : Nat) :
    formatNat n ≠ [] ∧ (∀ c ∈ formatNat n, ∃ m, m < 10 ∧ c = Nat.digitChar m) ∧
      decimalValue (formatNat n) = n := by
  obtain ⟨pre, he, hne, hall, hval⟩ := toDigitsCore_spec (n + 1) n [] (by omega)
  have e : formatNat n = pre := by
    unfold formatNat Nat.toDigits
    rw [he]
    simp
  rw [e]
  exact ⟨hne, hall, hval⟩

theorem space_not_mem_formatNat (n : Nat) : ' ' ∉ formatNat n := by
  intro h
  obtain ⟨m, hm, e⟩ := (formatNat_spec n).2.1 _ h
  exact (digitChar_facts m hm).2.2.1 e.symm

theorem takeWhile_digits (pre tail : GoString) (hall : ∀ c ∈ pre, c.isDigit = true)
    (htail : ∀ c ∈ tail.head?, c.isDigit = false) :
    (pre ++ tail).takeWhile Char.isDigit = pre := by
  induction pre with
  | nil =>
    cases tail with
    | nil => rfl
    | cons c cs =>
      have := htail c (by simp)
      simp [List.takeWhile, this]
  | cons d ds ih =>
    have hd := hall d (List.mem_cons_self _ _)
    simp [List.takeWhile, hd, ih (fun c hc => hall c (List.mem_cons_of_mem _ hc))]

theorem sscanfPlusInt_formatNat (N : Nat) (tail : GoString) (hN : N ≤ 9223372036854775807)
    (htail : ∀ c ∈ tail.head?, c.isDigit = false) :
    sscanfPlusInt ('+' :: (formatNat N ++ tail)) = N := by
  obtain ⟨hne, hall, hval⟩ := formatNat_spec N
  have hdig : ∀ c ∈ formatNat N, c.isDigit = true := by
    intro c hc
    obtain ⟨m, hm, e⟩ := hall c hc
    rw [e]
    exact (digitChar_facts m hm).1
  have hscan : scanDigits false (formatNat N ++ tail) = N := by
    unfold scanDigits
    simp only [takeWhile_digits _ _ hdig htail, if_neg hne, hval]
    unfold parseInt64OrZero
    rw [if_pos]
    · simp
    · constructor <;> simp <;> omega
  cases hfn : formatNat N with
  | nil => exact absurd hfn hne
  | cons d ds =>
    obtain ⟨m, hm, e⟩ := hall d (by rw [hfn]; exact List.mem_cons_self _ _)
    have hf := digitChar_facts m hm
    rw [← e] at hf
    rw [hfn] at hscan
    have hskip : skipSpace ((d :: ds) ++ tail) = some ((d :: ds) ++ tail) := by
      simp [skipSpace, hf.2.2.2.2.2.1, hf.2.2.2.2.2.2]
    unfold sscanfPlusInt
    simp only [hskip]
    split
    · next heq => simp at heq
    · next r heq =>
      simp only [List.cons_append, Option.some.injEq, List.cons.injEq] at heq
      exact absurd heq.1 hf.2.2.2.1
    · next r heq =>
      simp only [List.cons_append, Option.some.injEq, List.cons.injEq] at heq
      exact absurd heq.1 hf.2.2.2.2.1
    · next r _ _ heq =>
      simp only [List.cons_append, Option.some.injEq] at heq
      rw [← heq]
      exact hscan

theorem parseHunkHeader_of_fields (p0 p1 q restLine : GoString) (h0 : ' ' ∉ p0)
    (h1 : ' ' ∉ p1) (h2 : ' ' ∉ q) :
    parseHunkHeader (p0 ++ ' ' :: (p1 ++ ' ' :: (('+' :: q) ++ ' ' :: restLine))) =
      sscanfPlusInt ('+' :: q) := by
  have h2' : ' ' ∉ ('+' :: q) := by
    intro h
    rcases List.mem_cons.1 h with h | h
    · exact absurd h (by decide)
    · exact h2 h
  unfold parseHunkHeader
  rw [Split_append_sep _ _ _ h0, Split_append_sep _ _ _ h1, Split_append_sep _ _ _ h2']
  simp [startsWith, List.isPrefixOf]


/-! ## One hunk -/

theorem isDeletion_not_content (line : GoString) (h : isDeletionLine line = true) :
    isContentLine line = false := by
  cases line with
  | nil => simp [isDeletionLine, startsWith, List.isPrefixOf] at h
  | cons c cs =>
    simp only [isDeletionLine, startsWith, List.isPrefixOf, Bool.and_eq_true, beq_iff_eq] at h
    have hc : c = '-' := h.1.symm
    subst hc
    simp [isContentLine, startsWith, List.isPrefixOf]

theorem isDeletion_not_header (line : GoString) (h : isDeletionLine line = true) :
    isHunkHeader line = false := by
  cases line with
  | nil => simp [isDeletionLine, startsWith, List.isPrefixOf] at h
  | cons c cs =>
    simp only [isDeletionLine, startsWith, List.isPrefixOf, Bool.and_eq_true, beq_iff_eq] at h
    have hc : c = '-' := h.1.symm
    subst hc
    simp [isHunkHeader, startsWith, List.isPrefixOf]

theorem stepLineNumber_content (n : Int) (line : GoString) (h : isContentLine line = true) :
    stepLineNumber n line = wrapInt64 (n + 1) := by
  simp [stepLineNumber, isContent_not_header line h, h]

theorem stepLineNumber_deletion (n : Int) (line : GoString) (h : isDeletionLine line = true) :
    stepLineNumber n line = n := by
  simp [stepLineNumber, isDeletion_not_header line h, isDeletion_not_content line h]

theorem parseHunkHeader_long (a b N M : Nat) (hN : N ≤ 9223372036854775807) :
    parseHunkHeader (hunkHeaderLong a b N M) = N := by
  have e : hunkHeaderLong a b N M =
      ['@', '@'] ++ ' ' :: (('-' :: (formatNat a ++ ',' :: formatNat b)) ++
        ' ' :: (('+' :: (formatNat N ++ ',' :: formatNat M)) ++ ' ' :: ['@', '@'])) := by
    simp [hunkHeaderLong]
  have hsp : ∀ x y : Nat, ' ' ∉ formatNat x ++ ',' :: formatNat y := by
    intro x y h
    rcases List.mem_append.1 h with h | h
    · exact space_not_mem_formatNat x h
    · rcases List.mem_cons.1 h with h | h
      · exact absurd h (by decide)
      · exact space_not_mem_formatNat y h
  rw [e, parseHunkHeader_of_fields _ _ _ _ (by decide) ?_ (hsp N M)]
  · exact sscanfPlusInt_formatNat N _ hN (by simp)
  · intro h
    rcases List.mem_cons.1 h with h | h
    · exact absurd h (by decide)
    · exact hsp a b h

theorem parseHunkHeader_short (a N : Nat) (hN : N ≤ 9223372036854775807) :
    parseHunkHeader (hunkHeaderShort a N) = N := by
  have e : hunkHeaderShort a N =
      ['@', '@'] ++ ' ' :: (('-' :: formatNat a) ++
        ' ' :: (('+' :: formatNat N) ++ ' ' :: ['@', '@'])) := by
    simp [hunkHeaderShort]
  rw [e, parseHunkHeader_of_fields _ _ _ _ (by decide) ?_ (space_not_mem_formatNat N)]
  · have := sscanfPlusInt_formatNat N [] hN (by simp)
    simpa using this
  · intro h
    rcases List.mem_cons.1 h with h | h
    · exact absurd h (by decide)
    · exact space_not_mem_formatNat a h

theorem isHunkHeader_long (a b N M : Nat) : isHunkHeader (hunkHeaderLong a b N M) = true := by
  simp [hunkHeaderLong, isHunkHeader, startsWith, List.isPrefixOf]

theorem isHunkHeader_short (a N : Nat) : isHunkHeader (hunkHeaderShort a N) = true := by
  simp [hunkHeaderShort, isHunkHeader, startsWith, List.isPrefixOf]


/-- The loop on the body of one hunk (context, addition and deletion lines
only), as long as the counter does not overflow: the `i`-th content line is
found for target `n + 1 + i`, at its own index; other targets are not found. -/
theorem calc_loop_hunk_body (rest : List GoString) :
    ∀ (position n : Int),
      (∀ line ∈ rest, isContentLine line = true ∨ isDeletionLine line = true) →
      -9223372036854775808 ≤ n →
      n + (rest.countP isContentLine : Nat) ≤ 9223372036854775807 →
      (∀ i, i < rest.countP isContentLine →
        ∃ j line, rest[j]? = some line ∧ isContentLine line = true ∧
          (rest.take j).countP isContentLine = i ∧
          lineNumberFrom n (rest.take (j + 1)) = n + 1 + (i : Nat) ∧
          CalculateDiffPosition.loop (n + 1 + (i : Nat)) rest position n =
            position + (j : Nat) + 1) ∧
      (∀ target : Int, target ≤ n ∨ n + (rest.countP isContentLine : Nat) < target →
        CalculateDiffPosition.loop target rest position n = -1) := by
  induction rest with
  | nil =>
    intro position n _ _ _
    constructor
    · intro i hi
      simp at hi
    · intro target _
      rfl
  | cons line rest ih =>
    intro position n hall hlo hhi
    have hallr : ∀ l ∈ rest, isContentLine l = true ∨ isDeletionLine l = true :=
      fun l hl => hall l (List.mem_cons_of_mem _ hl)
    rw [List.countP_cons] at hhi
    rcases hall line (List.mem_cons_self _ _) with hc | hdel
    · -- a context or addition line
      have hk : (if isContentLine line = true then 1 else 0) = 1 := by simp [hc]
      rw [hk] at hhi
      have hstep : stepLineNumber n line = n + 1 := by
        rw [stepLineNumber_content n line hc]
        exact wrapInt64_of_range _ (by omega) (by push_cast at hhi; omega)
      have hcl : isCountedLine line = true := by simp [isCountedLine, hc]
      obtain ⟨ih1, ih2⟩ := ih (position + 1) (n + 1) hallr (by omega)
        (by push_cast at hhi; omega)
      constructor
      · intro i hi
        rw [List.countP_cons, hk] at hi
        cases i with
        | zero =>
          refine ⟨0, line, by simp, hc, by simp, ?_, ?_⟩
          · simp [lineNumberFrom, hstep]
          · rw [calc_loop_cons, if_pos ⟨hc, by rw [hstep]; simp⟩]
            simp
        | succ i =>
          obtain ⟨j, l, hl, hlc, hcount, hnum, hres⟩ := ih1 i (by omega)
          refine ⟨j + 1, l, by simpa using hl, hlc, ?_, ?_, ?_⟩
          · rw [List.take_succ_cons, List.countP_cons, hcount, hk]
          · rw [List.take_succ_cons]
            have : lineNumberFrom n (line :: rest.take (j + 1)) =
                lineNumberFrom (n + 1) (rest.take (j + 1)) := by
              simp [lineNumberFrom, hstep]
            rw [this, hnum]
            push_cast
            ring
          · have hne : ¬ (isContentLine line = true ∧
                stepLineNumber n line = n + 1 + ((i + 1 : Nat) : Int)) := by
              rintro ⟨_, h⟩
              rw [hstep] at h
              push_cast at h
              omega
            rw [calc_loop_cons, if_neg hne, hstep]
            have e : n + 1 + ((i + 1 : Nat) : Int) = n + 1 + 1 + (i : Nat) := by
              push_cast
              ring
            rw [e, hcl]
            simp only [if_true]
            rw [hres]
            push_cast
            ring
      · intro target ht
        rw [List.countP_cons, hk] at ht
        have hne : ¬ (isContentLine line = true ∧ stepLineNumber n line = target) := by
          rintro ⟨_, h⟩
          rw [hstep] at h
          push_cast at ht
          omega
        rw [calc_loop_cons, if_neg hne, hstep, hcl]
        simp only [if_true]
        exact ih2 target (by push_cast at ht; omega)
    · -- a deletion line
      have hnc := isDeletion_not_content line hdel
      have hk : (if isContentLine line = true then 1 else 0) = 0 := by simp [hnc]
      rw [hk] at hhi
      have hstep := stepLineNumber_deletion n line hdel
      have hcl : isCountedLine line = true := by simp [isCountedLine, hdel]
      obtain ⟨ih1, ih2⟩ := ih (position + 1) n hallr hlo (by simpa using hhi)
      have hne : ∀ target, ¬ (isContentLine line = true ∧ stepLineNumber n line = target) := by
        rintro target ⟨h, _⟩
        rw [hnc] at h
        exact Bool.noConfusion h
      constructor
      · intro i hi
        rw [List.countP_cons, hk] at hi
        obtain ⟨j, l, hl, hlc, hcount, hnum, hres⟩ := ih1 i (by simpa using hi)
        refine ⟨j + 1, l, by simpa using hl, hlc, ?_, ?_, ?_⟩
        · rw [List.take_succ_cons, List.countP_cons, hcount, hk]
          rfl
        · rw [List.take_succ_cons]
          have : lineNumberFrom n (line :: rest.take (j + 1)) =
              lineNumberFrom n (rest.take (j + 1)) := by
            simp [lineNumberFrom, hstep]
          rw [this, hnum]
        · rw [calc_loop_cons, if_neg (hne _), hstep, hcl]
          simp only [if_true]
          rw [hres]
          push_cast
          ring
      · intro target ht
        rw [List.countP_cons, hk] at ht
        rw [calc_loop_cons, if_neg (hne _), hstep, hcl]
        simp only [if_true]
        exact ih2 target (by simpa using ht)

/-! ## `validateReview` -/

theorem lastFileNamed_cons (file : CommitFile) (rest : List CommitFile) (path : GoString) :
    lastFileNamed (file :: rest) path =
      match lastFileNamed rest path with
      | some g => some g
      | none => if file.Filename = path then some file else none := by
  unfold lastFileNamed
  rw [List.reverse_cons, List.find?_append]
  cases h : List.find? (fun file => decide (file.Filename = path)) rest.reverse with
  | some g => simp
  | none =>
    by_cases hf : file.Filename = path
    · simp [List.find?, hf]
    · simp [List.find?, hf]

theorem buildFileMap_spec (files : List CommitFile) :
    ∀ (fileMap : FileMap) (key : GoString),
      buildFileMap files fileMap key =
        match lastFileNamed files key with
        | some file => some file
        | none => fileMap key := by
  induction files with
  | nil => intro fileMap key; simp [buildFileMap, lastFileNamed]
  | cons file rest ih =>
    intro fileMap key
    rw [buildFileMap, ih, lastFileNamed_cons]
    cases h : lastFileNamed rest key with
    | some g => rfl
    | none =>
      by_cases hf : file.Filename = key
      · simp [FileMap.assign, hf]
      · have hf' : ¬ key = file.Filename := fun e => hf e.symm
        simp [FileMap.assign, hf, hf']

theorem lastFileNamed_isSome (files : List CommitFile) (path : GoString) :
    (lastFileNamed files path).isSome =
      files.any (fun file => decide (file.Filename = path)) := by
  induction files with
  | nil => simp [lastFileNamed]
  | cons file rest ih =>
    rw [lastFileNamed_cons, List.any_cons, ← ih]
    cases h : lastFileNamed rest path with
    | some g => simp
    | none =>
      by_cases hf : file.Filename = path
      · simp [hf]
      · simp [hf]

/-- The warning the loop appends for a comment it drops. -/
theorem validate_loop_spec (files : List CommitFile) (comments : List FileComment) :
    ∀ (validComments : List FileComment) (warnings : List GoString),
      validateReview.loop (buildFileMap files (fun _ => none)) comments validComments warnings =
        (validComments ++ comments.filter (isPostable files),
          warnings ++ (comments.filter (fun c => !isPostable files c)).map (warningFor files)) := by
  induction comments with
  | nil => intro v w; simp [validateReview.loop]
  | cons comment rest ih =>
    intro v w
    have hmap := buildFileMap_spec files (fun _ => none) comment.Path
    have hany := lastFileNamed_isSome files comment.Path
    unfold validateReview.loop
    cases hl : lastFileNamed files comment.Path with
    | none =>
      rw [hl] at hmap hany
      have hp : isPostable files comment = false := by simp [isPostable, hl]
      have hw : warningFor files comment =
          "comment references non-existent file: ".toList ++ comment.Path := by
        unfold warningFor
        rw [← hany]
        simp
      simp only [hmap]
      rw [ih]
      simp [hp, hw]
    | some file =>
      rw [hl] at hmap hany
      have hp : isPostable files comment = IsLineInDiff file comment.Line := by
        simp [isPostable, hl]
      have hw : warningFor files comment =
          "comment references line not in diff: ".toList ++ comment.Path ++ [':'] ++
            formatInt comment.Line := by
        unfold warningFor
        rw [← hany]
        simp
      simp only [hmap]
      by_cases hin : IsLineInDiff file comment.Line = true
      · rw [hin] at hp
        simp only [hin, Bool.not_true, Bool.false_eq_true, if_false]
        rw [ih]
        simp [hp]
      · have hin' : IsLineInDiff file comment.Line = false := by simpa using hin
        rw [hin'] at hp
        simp only [hin', Bool.not_false, if_true]
        rw [ih]
        simp [hp, hw]

theorem isPostable_eq_of_nodup (files : List CommitFile) (comment : FileComment)
    (hd : (files.map CommitFile.Filename).Nodup) :
    isPostable files comment = isPostableOnSomeFile files comment := by
  induction files with
  | nil => simp [isPostable, isPostableOnSomeFile, lastFileNamed]
  | cons file rest ih =>
    rw [List.map_cons, List.nodup_cons] at hd
    have ih' := ih hd.2
    unfold isPostable at ih' ⊢
    unfold isPostableOnSomeFile at ih' ⊢
    rw [lastFileNamed_cons, List.any_cons]
    cases hl : lastFileNamed rest comment.Path with
    | some g =>
      rw [hl] at ih'
      have hmem : comment.Path ∈ rest.map CommitFile.Filename := by
        have := lastFileNamed_isSome rest comment.Path
        rw [hl] at this
        simp only [Option.isSome_some] at this
        have h2 := List.any_eq_true.1 this.symm
        obtain ⟨f, hf, hname⟩ := h2
        exact List.mem_map.2 ⟨f, hf, by simpa using hname⟩
      have hne : ¬ file.Filename = comment.Path := by
        intro e
        rw [← e] at hmem
        exact hd.1 hmem
      simp only [hne, decide_False, Bool.false_and, Bool.false_or]
      exact ih'
    | none =>
      rw [hl] at ih'
      by_cases hf : file.Filename = comment.Path
      · simp only [hf, if_true, decide_True, Bool.true_and]
        rw [← ih']
        simp
      · simp only [hf, if_false, decide_False, Bool.false_and, Bool.false_or]
        exact ih'

/-! ## Blocking issues and response validation -/

theorem hasBlocking_generalLoop_iff (cs : List GeneralComment) :
    HasBlockingIssues.generalLoop cs = true ↔ ∃ c ∈ cs, c.Severity = SeverityError := by
  induction cs with
  | nil => simp [HasBlockingIssues.generalLoop]
  | cons c rest ih =>
    by_cases h : c.Severity = SeverityError
    · simp [HasBlockingIssues.generalLoop, IsError, h]
    · simp [HasBlockingIssues.generalLoop, IsError, h, ih]

theorem hasBlocking_fileLoop_iff (cs : List FileComment) :
    HasBlockingIssues.fileLoop cs = true ↔ ∃ c ∈ cs, c.Severity = SeverityError := by
  induction cs with
  | nil => simp [HasBlockingIssues.fileLoop]
  | cons c rest ih =>
    by_cases h : c.Severity = SeverityError
    · simp [HasBlockingIssues.fileLoop, IsError, h]
    · simp [HasBlockingIssues.fileLoop, IsError, h, ih]

theorem getErrorComments_loop_spec (cs : List FileComment) :
    ∀ acc : List FileComment,
      GetErrorComments.loop cs acc = acc ++ cs.filter (fun c => IsError c.Severity) := by
  induction cs with
  | nil => intro acc; simp [GetErrorComments.loop]
  | cons c rest ih =>
    intro acc
    by_cases h : IsError c.Severity = true
    · simp [GetErrorComments.loop, h, ih]
    · simp [GetErrorComments.loop, h, ih]

theorem validateSeverity_eq_none (severity : GoString) :
    validateSeverity severity = none ↔
      (severity = SeverityInfo ∨ severity = SeverityWarning ∨ severity = SeverityError) := by
  unfold validateSeverity
  split <;> simp_all

theorem validateCommentType_eq_none (commentType : GoString) :
    validateCommentType commentType = none ↔
      (commentType = TypeBug ∨ commentType = TypeStyle ∨ commentType = TypePerformance ∨
        commentType = TypeSecurity ∨ commentType = TypeMaintainability) := by
  unfold validateCommentType
  split <;> simp_all

theorem validate_generalLoop_eq_none (cs : List GeneralComment) :
    ∀ i : Nat, validateReviewResponse.generalLoop i cs = none ↔
      ∀ c ∈ cs, validateSeverity c.Severity = none := by
  induction cs with
  | nil => intro i; simp [validateReviewResponse.generalLoop]
  | cons c rest ih =>
    intro i
    unfold validateReviewResponse.generalLoop
    cases h : validateSeverity c.Severity with
    | some err => simp [h]
    | none => simp [h, ih]

theorem validate_fileLoop_eq_none (cs : List FileComment) :
    ∀ i : Nat, validateReviewResponse.fileLoop i cs = none ↔
      ∀ c ∈ cs, c.Path ≠ [] ∧ 1 ≤ c.Line ∧ validateSeverity c.Severity = none ∧
        validateCommentType c.CommentType = none := by
  induction cs with
  | nil => intro i; simp [validateReviewResponse.fileLoop]
  | cons c rest ih =>
    intro i
    unfold validateReviewResponse.fileLoop
    by_cases hp : c.Path = []
    · simp [hp]
    · by_cases hl : c.Line ≤ 0
      · have : ¬ (1 ≤ c.Line) := by omega
        simp [hp, hl, this]
      · have hl' : 1 ≤ c.Line := by omega
        cases hs : validateSeverity c.Severity with
        | some err => simp [hp, hl, hs]
        | none =>
          cases ht : validateCommentType c.CommentType with
          | some err => simp [hp, hl, hs, ht]
          | none => simp [hp, hl, hl', hs, ht, ih]

/-! ## `PostReview` -/

theorem post_commentLoop_spec (title : GoString → GoString) (files : List CommitFile)
    (comments : List FileComment) :
    ∀ acc : List DraftReviewComment,
      PostReview.commentLoop title (buildFileMap files (fun _ => none)) comments acc =
        acc ++ comments.filterMap (inlineComment title files) := by
  induction comments with
  | nil => intro acc; simp [PostReview.commentLoop]
  | cons c rest ih =>
    intro acc
    have hmap := buildFileMap_spec files (fun _ => none) c.Path
    unfold PostReview.commentLoop
    cases hl : lastFileNamed files c.Path with
    | none =>
      rw [hl] at hmap
      simp only [hmap]
      rw [ih]
      simp [List.filterMap_cons, inlineComment, hl]
    | some file =>
      rw [hl] at hmap
      simp only [hmap]
      by_cases hp : CalculateDiffPosition file c.Line = -1
      · simp only [hp, if_true]
        rw [ih]
        simp [List.filterMap_cons, inlineComment, hl, hp]
      · simp only [hp, if_false]
        rw [ih]
        simp [List.filterMap_cons, inlineComment, hl, hp]

theorem lastFileNamed_eq_find_of_nodup (files : List CommitFile) (path : GoString)
    (hd : (files.map CommitFile.Filename).Nodup) :
    lastFileNamed files path = files.find? (fun file => decide (file.Filename = path)) := by
  induction files with
  | nil => rfl
  | cons file rest ih =>
    rw [List.map_cons, List.nodup_cons] at hd
    rw [lastFileNamed_cons, ih hd.2, List.find?_cons]
    by_cases hf : file.Filename = path
    · have hnone : List.find? (fun file => decide (file.Filename = path)) rest = none := by
        rw [List.find?_eq_none]
        intro g hg hname
        apply hd.1
        rw [hf]
        exact List.mem_map.2 ⟨g, hg, by simpa using hname⟩
      simp [hf, hnone]
    · simp only [hf, decide_False, if_false]
      cases List.find? (fun file => decide (file.Filename = path)) rest <;> rfl

theorem intercalate_cons (sep x : GoString) (xs : List GoString) :
    List.intercalate sep (x :: xs) = x ++ (xs.map (fun y => sep ++ y)).flatten := by
  induction xs generalizing x with
  | nil => simp [List.intercalate, List.intersperse]
  | cons y ys ih =>
    have := ih y
    simp only [List.intercalate, List.intersperse, List.flatten_cons, List.map_cons] at this ⊢
    rw [this]
    simp

theorem post_generalLoop_of_ne_nil (cs : List GeneralComment) :
    ∀ acc : GoString, acc ≠ [] →
      PostReview.generalLoop cs acc =
        acc ++ (cs.map (fun c => "\n\n".toList ++ formatGeneralComment c)).flatten := by
  induction cs with
  | nil => intro acc _; simp [PostReview.generalLoop]
  | cons c rest ih =>
    intro acc hacc
    have hlen : acc.length > 0 := List.length_pos.2 hacc
    unfold PostReview.generalLoop
    simp only [hlen, if_true]
    rw [ih _ (by simp [hacc])]
    simp

theorem getSeverityEmoji_ne_nil (severity : GoString)
    (h : severity = SeverityInfo ∨ severity = SeverityWarning ∨ severity = SeverityError) :
    getSeverityEmoji severity ≠ [] := by
  rcases h with h | h | h <;> rw [h] <;> decide

theorem post_generalLoop_eq_intercalate (cs : List GeneralComment)
    (hsev : ∀ c ∈ cs, c.Severity = SeverityInfo ∨ c.Severity = SeverityWarning ∨
      c.Severity = SeverityError) :
    PostReview.generalLoop cs [] =
      List.intercalate "\n\n".toList (cs.map formatGeneralComment) := by
  cases cs with
  | nil => rfl
  | cons c rest =>
    have hne : formatGeneralComment c ≠ [] := by
      unfold formatGeneralComment
      have := getSeverityEmoji_ne_nil c.Severity (hsev c (List.mem_cons_self _ _))
      simp [this]
    unfold PostReview.generalLoop
    simp only [List.length_nil, gt_iff_lt, lt_self_iff_false, if_false, List.nil_append]
    rw [post_generalLoop_of_ne_nil rest _ hne, List.map_cons, intercalate_cons, List.map_map]
    rfl

theorem post_generalLoop_eq_nil_iff (cs : List GeneralComment)
    (hsev : ∀ c ∈ cs, c.Severity = SeverityInfo ∨ c.Severity = SeverityWarning ∨
      c.Severity = SeverityError) :
    PostReview.generalLoop cs [] = [] ↔ cs = [] := by
  cases cs with
  | nil => simp [PostReview.generalLoop]
  | cons c rest =>
    have hne : formatGeneralComment c ≠ [] := by
      unfold formatGeneralComment
      have := getSeverityEmoji_ne_nil c.Severity (hsev c (List.mem_cons_self _ _))
      simp [this]
    unfold PostReview.generalLoop
    simp only [List.length_nil, gt_iff_lt, lt_self_iff_false, if_false, List.nil_append]
    rw [post_generalLoop_of_ne_nil rest _ hne]
    simp [hne]

/-! ## Editing a patch line by line -/

theorem uncounted_facts (x : GoString) (hx : isCountedLine x = false) :
    isHunkHeader x = false ∧ isContentLine x = false ∧ isDeletionLine x = false ∧
      isAdditionLine x = false ∧ ∀ n, stepLineNumber n x = n := by
  simp only [isCountedLine, Bool.or_eq_false_iff] at hx
  obtain ⟨⟨h1, h2⟩, h3⟩ := hx
  have h4 : isAdditionLine x = false := by
    by_contra h
    rw [isAddition_isContent x (by simpa using h)] at h2
    exact Bool.noConfusion h2
  refine ⟨h1, h2, h3, h4, ?_⟩
  intro n
  simp [stepLineNumber, h1, h2]

theorem deletion_facts (d : GoString) (hd : isDeletionLine d = true) :
    isContentLine d = false ∧ isCountedLine d = true ∧ isAdditionLine d = false ∧
      ∀ n, stepLineNumber n d = n := by
  have h2 := isDeletion_not_content d hd
  have h4 : isAdditionLine d = false := by
    by_contra h
    rw [isAddition_isContent d (by simpa using h)] at h2
    exact Bool.noConfusion h2
  exact ⟨h2, by simp [isCountedLine, hd], h4, fun n => stepLineNumber_deletion n d hd⟩

theorem unparsed_header_facts (h : GoString) (hh : isHunkHeader h = true)
    (hparse : parseHunkHeader h ≤ 0) :
    isContentLine h = false ∧ isCountedLine h = true ∧ isAdditionLine h = false ∧
      ∀ n, stepLineNumber n h = n := by
  have h2 : isContentLine h = false :=
    startsWith_two_at_not_content h (by simpa [isHunkHeader] using hh)
  have h4 : isAdditionLine h = false := by
    by_contra hc
    rw [isAddition_isContent h (by simpa using hc)] at h2
    exact Bool.noConfusion h2
  refine ⟨h2, by simp [isCountedLine, hh], h4, ?_⟩
  intro n
  simp [stepLineNumber, hh, not_lt.2 hparse]

/-- Two lines that are classified alike and move the counter alike are
interchangeable for `CalculateDiffPosition`. -/
theorem calc_loop_replace (x y : GoString) (post : List GoString) (target : Int)
    (h1 : isContentLine x = isContentLine y) (h2 : isCountedLine x = isCountedLine y)
    (h3 : ∀ n, stepLineNumber n x = stepLineNumber n y) (pre : List GoString) :
    ∀ (position n : Int),
      CalculateDiffPosition.loop target (pre ++ x :: post) position n =
        CalculateDiffPosition.loop target (pre ++ y :: post) position n := by
  induction pre with
  | nil =>
    intro p n
    simp only [List.nil_append]
    rw [calc_loop_cons, calc_loop_cons, h1, h2, h3]
  | cons l rest ih =>
    intro p n
    simp only [List.cons_append]
    rw [calc_loop_cons, calc_loop_cons target l, ih]

/-- A line that consumes no position and leaves the counter alone can be
inserted or removed without effect on `CalculateDiffPosition`. -/
theorem calc_loop_insert_uncounted (x : GoString) (hx : isCountedLine x = false)
    (post : List GoString) (target : Int) (pre : List GoString) :
    ∀ (position n : Int),
      CalculateDiffPosition.loop target (pre ++ x :: post) position n =
        CalculateDiffPosition.loop target (pre ++ post) position n := by
  obtain ⟨_, hc, _, _, hstep⟩ := uncounted_facts x hx
  induction pre with
  | nil =>
    intro p n
    simp only [List.nil_append]
    rw [calc_loop_cons, hc, hx, hstep]
    simp
  | cons l rest ih =>
    intro p n
    simp only [List.cons_append]
    rw [calc_loop_cons, calc_loop_cons target l, ih]

/-- A line that is no addition and leaves the counter alone can be inserted or
removed without effect on `GetChangedLines`. -/
theorem changed_loop_insert_neutral (x : GoString) (ha : isAdditionLine x = false)
    (hstep : ∀ n, stepLineNumber n x = n) (post : List GoString) (pre : List GoString) :
    ∀ (n : Int) (acc : List Int),
      GetChangedLines.loop (pre ++ x :: post) n acc = GetChangedLines.loop (pre ++ post) n acc := by
  induction pre with
  | nil =>
    intro n acc
    simp only [List.nil_append]
    rw [changed_loop_cons, ha, hstep]
    simp
  | cons l rest ih =>
    intro n acc
    simp only [List.cons_append]
    rw [changed_loop_cons, changed_loop_cons l, ih]

/-- Starting the position counter `q` higher raises a found position by `q`. -/
theorem calc_loop_shift (target : Int) (q : Int) (post : List GoString) :
    ∀ (position n : Int), (∃ j, MatchesFrom n post j target) →
      CalculateDiffPosition.loop target post (position + q) n =
        CalculateDiffPosition.loop target post position n + q := by
  induction post with
  | nil =>
    rintro p n ⟨j, line, hl, _⟩
    simp at hl
  | cons l rest ih =>
    rintro p n ⟨j, hj⟩
    rw [calc_loop_cons, calc_loop_cons]
    by_cases hm : isContentLine l = true ∧ stepLineNumber n l = target
    · rw [if_pos hm, if_pos hm]
      ring
    · rw [if_neg hm, if_neg hm]
      cases j with
      | zero => exact absurd ((matchesFrom_zero_iff _ _ _ _).1 hj) hm
      | succ j =>
        have := ih (p + if isCountedLine l then 1 else 0) (stepLineNumber n l)
          ⟨j, (matchesFrom_succ_iff _ _ _ _ _).1 hj⟩
        rw [← this]
        congr 1
        ring

theorem calc_loop_no_match (target : Int) (lines : List GoString) (position n : Int)
    (hno : ∀ j, ¬ MatchesFrom n lines j target) :
    CalculateDiffPosition.loop target lines position n = -1 := by
  rcases calc_loop_spec target lines position n with ⟨h, _⟩ | ⟨j, hj, _, _⟩
  · exact h
  · exact absurd hj (hno j)

/-- Inserting a line that consumes a position, is no content line and leaves
the counter alone: nothing changes for a target first matched before the
insertion point, the position grows by one for a target first matched after
it, and a target without a match stays without one. -/
theorem calc_loop_insert_counted (x : GoString) (hc : isContentLine x = false)
    (hcl : isCountedLine x = true) (hstep : ∀ n, stepLineNumber n x = n)
    (post : List GoString) (target : Int) (pre : List GoString) :
    ∀ (position n : Int),
      ((∀ j, ¬ MatchesFrom n (pre ++ post) j target) →
        CalculateDiffPosition.loop target (pre ++ x :: post) position n = -1) ∧
      (∀ j, MatchesFrom n (pre ++ post) j target →
        (∀ i, i < j → ¬ MatchesFrom n (pre ++ post) i target) →
        (j < pre.length →
          CalculateDiffPosition.loop target (pre ++ x :: post) position n =
            CalculateDiffPosition.loop target (pre ++ post) position n) ∧
        (pre.length ≤ j →
          CalculateDiffPosition.loop target (pre ++ x :: post) position n =
            CalculateDiffPosition.loop target (pre ++ post) position n + 1)) := by
  induction pre with
  | nil =>
    intro p n
    have hhead : CalculateDiffPosition.loop target (x :: post) p n =
        CalculateDiffPosition.loop target post (p + 1) n := by
      rw [calc_loop_cons, hc, hcl, hstep]
      simp
    simp only [List.nil_append, List.length_nil]
    constructor
    · intro hno
      rw [hhead]
      exact calc_loop_no_match target post (p + 1) n hno
    · intro j hj _
      constructor
      · intro h; omega
      · intro _
        rw [hhead]
        exact calc_loop_shift target 1 post p n ⟨j, hj⟩
  | cons l rest ih =>
    intro p n
    simp only [List.cons_append, List.length_cons]
    rw [calc_loop_cons, calc_loop_cons target l (rest ++ post)]
    by_cases hm : isContentLine l = true ∧ stepLineNumber n l = target
    · rw [if_pos hm, if_pos hm]
      constructor
      · intro hno
        exact absurd ((matchesFrom_zero_iff _ _ _ _).2 hm) (hno 0)
      · intro j _ hfirst
        constructor
        · intro _; rfl
        · intro hj
          exact absurd ((matchesFrom_zero_iff _ _ _ _).2 hm) (hfirst 0 (by omega))
    · rw [if_neg hm, if_neg hm]
      obtain ⟨ih1, ih2⟩ := ih (p + if isCountedLine l then 1 else 0) (stepLineNumber n l)
      constructor
      · intro hno
        exact ih1 (fun j hj => hno (j + 1) ((matchesFrom_succ_iff _ _ _ _ _).2 hj))
      · intro j hj hfirst
        cases j with
        | zero => exact absurd ((matchesFrom_zero_iff _ _ _ _).1 hj) hm
        | succ j =>
          have hj' := (matchesFrom_succ_iff _ _ _ _ _).1 hj
          have hfirst' : ∀ i, i < j → ¬ MatchesFrom (stepLineNumber n l) (rest ++ post) i target :=
            fun i hi h => hfirst (i + 1) (by omega) ((matchesFrom_succ_iff _ _ _ _ _).2 h)
          obtain ⟨hlt, hge⟩ := ih2 j hj' hfirst'
          exact ⟨fun h => hlt (by omega), fun h => hge (by omega)⟩

theorem calc_not_found_iff (file : CommitFile) (target : Int) :
    CalculateDiffPosition file target = -1 ↔
      ∀ j, ¬ MatchesAt (Split '\n' file.Patch) j target := by
  constructor
  · intro h
    rcases calc_spec file target with ⟨_, hno⟩ | ⟨j, hfirst, hres⟩
    · exact hno
    · have := countedThrough_pos_of_match _ _ _ hfirst.1
      rw [hres] at h
      omega
  · intro hno
    rcases calc_spec file target with ⟨h, _⟩ | ⟨j, hfirst, _⟩
    · exact h
    · exact absurd hfirst.1 (hno j)

/-- A patch whose only line is no context or addition line gives the results
of the empty patch. -/
theorem lone_line_like_empty (single empty : CommitFile) (x : GoString)
    (hx : isContentLine x = false) (he : empty.Patch = [])
    (hs : Split '\n' single.Patch = [x]) :
    (∀ target : Int,
      CalculateDiffPosition single target = CalculateDiffPosition empty target) ∧
      GetChangedLines single = GetChangedLines empty := by
  have ha : isAdditionLine x = false := by
    by_contra h
    rw [isAddition_isContent x (by simpa using h)] at hx
    exact Bool.noConfusion hx
  constructor
  · intro target
    have h1 : CalculateDiffPosition empty target = -1 := by
      simp [CalculateDiffPosition, he]
    rw [h1, calc_eq_loop, hs, calc_loop_cons, hx]
    simp [CalculateDiffPosition.loop]
  · have h1 : GetChangedLines empty = [] := by
      simp [GetChangedLines, he]
    rw [h1, changed_eq_loop, hs, changed_loop_cons, ha]
    simp [GetChangedLines.loop]

theorem skipSpace_cases (rest : GoString) :
    skipSpace rest = none ∨ skipSpace rest = some (rest.dropWhile isSpace) := by
  induction rest with
  | nil => right; rfl
  | cons c cs ih =>
    unfold skipSpace
    by_cases hn : c = '\n'
    · left; simp [hn]
    · by_cases hs : isSpace c = true
      · simp only [hn, if_false, hs, if_true, List.dropWhile_cons]
        exact ih
      · right
        simp [hn, hs, List.dropWhile_cons]

theorem scanDigits_no_digit (negative : Bool) (r : GoString)
    (h : ∀ c ∈ r.head?, c.isDigit = false) : scanDigits negative r = 0 := by
  have : r.takeWhile Char.isDigit = [] := by
    cases r with
    | nil => rfl
    | cons c cs =>
      have := h c (by simp)
      simp [List.takeWhile, this]
  simp [scanDigits, this]

/-- With no decimal digit after the white space and the optional sign, the
scan fails and the variable keeps its value `0`. -/
theorem sscanfPlusInt_no_digit (rest : GoString)
    (h : ∀ c ∈ (afterSpaceAndSign rest).head?, c.isDigit = false) :
    sscanfPlusInt ('+' :: rest) = 0 := by
  unfold sscanfPlusInt
  rcases skipSpace_cases rest with hs | hs
  · simp [hs]
  · simp only [hs]
    unfold afterSpaceAndSign at h
    split
    · next heq => simp at heq
    · next r heq =>
      simp only [Option.some.injEq] at heq
      rw [heq] at h
      exact scanDigits_no_digit false r h
    · next r heq =>
      simp only [Option.some.injEq] at heq
      rw [heq] at h
      exact scanDigits_no_digit true r h
    · next r h1 h2 heq =>
      simp only [Option.some.injEq] at heq
      rw [heq] at h
      have h' : ∀ c ∈ r.head?, c.isDigit = false := by
        intro c hc
        apply h c
        split
        · next r' => exact absurd rfl (h1 r')
        · next r' => exact absurd rfl (h2 r')
        · exact hc
      exact scanDigits_no_digit false r h'

/-! ## Validator and poster together -/

/-- A line that `IsLineInDiff` accepts has a position. -/
theorem calc_of_isLineInDiff (file : CommitFile) (line : Int)
    (h : IsLineInDiff file line = true) : CalculateDiffPosition file line ≠ -1 := by
  unfold IsLineInDiff at h
  rw [isLineInDiff_loop_iff, changed_eq_map, List.mem_map] at h
  obtain ⟨j, hj, hnum⟩ := h
  obtain ⟨l, hl, ha⟩ := (mem_additionIndices _ _).1 hj
  have hm : MatchesAt (Split '\n' file.Patch) j line :=
    (matchesAt_iff _ _ _).2
      ⟨(mem_contentIndices _ _).2 ⟨l, hl, isAddition_isContent l ha⟩, hnum⟩
  intro hneg
  exact (calc_not_found_iff file line).1 hneg j hm

theorem inlineComment_of_isPostable (title : GoString → GoString) (files : List CommitFile)
    (c : FileComment) (h : isPostable files c = true) :
    ∃ file, lastFileNamed files c.Path = some file ∧
      CalculateDiffPosition file c.Line ≠ -1 ∧
      inlineComment title files c =
        some ⟨c.Path, CalculateDiffPosition file c.Line, formatFileComment title c⟩ := by
  unfold isPostable at h
  cases hl : lastFileNamed files c.Path with
  | none => rw [hl] at h; exact Bool.noConfusion h
  | some file =>
    rw [hl] at h
    have hp := calc_of_isLineInDiff file c.Line h
    exact ⟨file, rfl, hp, by simp [inlineComment, hl, hp]⟩

theorem filterMap_of_all_some {α β : Type} (f : α → Option β) (g : α → β) (l : List α)
    (h : ∀ x ∈ l, f x = some (g x)) : l.filterMap f = l.map g := by
  induction l with
  | nil => rfl
  | cons x xs ih =>
    rw [List.filterMap_cons, h x (List.mem_cons_self _ _), List.map_cons,
      ih (fun y hy => h y (List.mem_cons_of_mem _ hy))]

theorem validated_fileComments (review : ReviewResponse) (files : List CommitFile) :
    (validateReview review files).1.FileComments =
      review.FileComments.filter (isPostable files) := by
  simp [validateReview, validate_loop_spec]

/-! ## The claims -/

/-- C1. Whenever `CalculateDiffPosition` returns a value `p` other than `-1`,
there is a first context-or-addition line (index `j` in the split patch) whose
new-file line number equals the target, and `p` is the number of hunk-header
and content lines among lines `0 .. j`; when every line of the patch is such a
line, `p` is the 1-based index `j + 1` of the matching line. -/
theorem C1_position_counts_patch_lines (file : CommitFile) (target p : Int)
    (hret : CalculateDiffPosition file target = p) (hp : p ≠ -1) :
    ∃ j, FirstMatchAt (Split '\n' file.Patch) j target ∧
      p = (countedThrough (Split '\n' file.Patch) j : Int) ∧
      ((∀ line ∈ Split '\n' file.Patch, isCountedLine line = true) → p = (j : Int) + 1) := by
  rcases calc_spec file target with ⟨hneg, _⟩ | ⟨j, hfirst, hres⟩
  · exact absurd (hret ▸ hneg) hp
  · refine ⟨j, hfirst, by rw [← hret, hres], ?_⟩
    intro hall
    rw [← hret, hres,
      countedThrough_all_counted _ j (matchesAt_lt_length _ _ _ hfirst.1) hall]
    push_cast
    rfl

/-- C1, at a concrete input: target line 3 of the example patch is found at
position 4, the 1-based index of ` line3` in the patch. -/
theorem C1_position_counts_patch_lines_witness :
    ∃ j, FirstMatchAt (Split '\n' examplePatch.Patch) j 3 ∧
      (4 : Int) = (countedThrough (Split '\n' examplePatch.Patch) j : Int) ∧
      ((∀ line ∈ Split '\n' examplePatch.Patch, isCountedLine line = true) →
        (4 : Int) = (j : Int) + 1) :=
  C1_position_counts_patch_lines examplePatch 3 4 (by decide) (by decide)

/-- C2, the code at the failing input. For the patch
`@@ -1,3 +1,4 @@\n line1\n+line2\n line3\n line4` and target line 2 the
claim expects position 2, which is also the diff position of the GitHub API
that the comment on `CalculateDiffPosition` names (there the line just below
the first `@@` header is position 1).  The code returns 3, not 2: its header
branch increments `position` at the first header too, so the header takes
position 1, ` line1` position 2 and `+line2` position 3. -/
theorem C2_example_position_is_three :
    examplePatch.Patch = "@@ -1,3 +1,4 @@\n line1\n+line2\n line3\n line4".toList ∧
      CalculateDiffPosition examplePatch 2 = 3 ∧
      CalculateDiffPosition examplePatch 2 ≠ 2 := by
  decide

/-- C3. `CalculateDiffPosition` returns `-1` exactly when no context or
addition line of the patch receives a new-file line number equal to the
target.  Hence it returns `-1` for the empty patch, for a patch without
context or addition lines (only hunk headers and deletion lines, say), and
for a target larger than every line number the patch assigns, such as target
999 on the example patch, which spans lines 1 to 4. -/
theorem C3_not_found_iff_no_match (file : CommitFile) (target : Int) :
    (CalculateDiffPosition file target = -1 ↔
      ∀ j, ¬ MatchesAt (Split '\n' file.Patch) j target) ∧
    (file.Patch = [] → CalculateDiffPosition file target = -1) ∧
    ((∀ line ∈ Split '\n' file.Patch, isHunkHeader line = true ∨ isDeletionLine line = true) →
      CalculateDiffPosition file target = -1) ∧
    ((∀ j line, (Split '\n' file.Patch)[j]? = some line → isContentLine line = true →
        lineNumberAt (Split '\n' file.Patch) j < target) →
      CalculateDiffPosition file target = -1) ∧
    CalculateDiffPosition examplePatch 999 = -1 := by
  have hiff : CalculateDiffPosition file target = -1 ↔
      ∀ j, ¬ MatchesAt (Split '\n' file.Patch) j target := by
    constructor
    · intro h
      rcases calc_spec file target with ⟨_, hno⟩ | ⟨j, hfirst, hres⟩
      · exact hno
      · have := countedThrough_pos_of_match _ _ _ hfirst.1
        rw [hres] at h
        omega
    · intro hno
      rcases calc_spec file target with ⟨h, _⟩ | ⟨j, hfirst, _⟩
      · exact h
      · exact absurd hfirst.1 (hno j)
  refine ⟨hiff, ?_, ?_, ?_, by decide⟩
  · intro hempty
    simp [CalculateDiffPosition, hempty]
  · intro hall
    rw [hiff]
    rintro j ⟨line, hl, hc, _⟩
    have hmem : line ∈ Split '\n' file.Patch := List.mem_iff_getElem?.2 ⟨j, hl⟩
    rcases hall line hmem with hh | hd
    · rw [startsWith_two_at_not_content line hh] at hc
      exact Bool.noConfusion hc
    · cases line with
      | nil => simp [isContentLine, startsWith, List.isPrefixOf] at hc
      | cons c cs =>
        simp only [isDeletionLine, startsWith, List.isPrefixOf, Bool.and_eq_true,
          beq_iff_eq] at hd
        have hc' : c = '-' := hd.1.symm
        subst hc'
        simp [isContentLine, startsWith, List.isPrefixOf] at hc
  · intro hlt
    rw [hiff]
    rintro j ⟨line, hl, hc, hn⟩
    have := hlt j line hl hc
    unfold lineNumberAt at this
    omega

/-- C4. For every patch and every integer target line (zero and negative
included), `CalculateDiffPosition` returns either `-1` or a position that is
at least 1. -/
theorem C4_result_is_sentinel_or_positive (file : CommitFile) (target : Int) :
    CalculateDiffPosition file target = -1 ∨ 1 ≤ CalculateDiffPosition file target := by
  rcases calc_spec file target with ⟨h, _⟩ | ⟨j, hfirst, hres⟩
  · exact Or.inl h
  · right
    have := countedThrough_pos_of_match _ _ _ hfirst.1
    rw [hres]
    exact_mod_cast this

/-- C5 as stated fails: the patch `@@ -1 +9223372036854775807 @@\n+a\n+b` has
the required form with `N = 9223372036854775807`, the target
`-9223372036854775808` is below `N`, and yet it is found, at position 3: the
counter wraps around on the second addition line. -/
theorem C5_single_hunk_counterexample :
    Split '\n' overflowingHunk.Patch =
        hunkHeaderShort 1 9223372036854775807 :: ["+a".toList, "+b".toList] ∧
      (-9223372036854775808 : Int) < 9223372036854775807 ∧
      CalculateDiffPosition overflowingHunk (-9223372036854775808) = 3 := by
  decide

/-- C5, amended. For every patch whose first line is a hunk header of the form
`@@ -a,b +N,M @@` or `@@ -a +N @@` with `N ≥ 1`, whose remaining lines are all
context, addition or deletion lines, `k` of them context or addition lines,
and with `N + k ≤ 2 ^ 63` (the line numbers fit Go's `int`): for every
`i < k`, the context-or-addition line preceded by exactly `i` such lines is
new-file line `N + i`, and `CalculateDiffPosition patch (N + i)` is that
line's 1-based index in the patch; every target below `N` or at least `N + k`
gives `-1`. -/
theorem C5_single_hunk_line_numbers (file : CommitFile) (hdr : GoString)
    (rest : List GoString) (a b N M : Nat)
    (hform : hdr = hunkHeaderLong a b N M ∨ hdr = hunkHeaderShort a N)
    (hN : 1 ≤ N)
    (hsplit : Split '\n' file.Patch = hdr :: rest)
    (hrest : ∀ line ∈ rest, isContentLine line = true ∨ isDeletionLine line = true)
    (hbound : N + rest.countP isContentLine ≤ 9223372036854775808) :
    (∀ i, i < rest.countP isContentLine →
      ∃ j line, (Split '\n' file.Patch)[j]? = some line ∧ isContentLine line = true ∧
        ((Split '\n' file.Patch).take j).countP isContentLine = i ∧
        lineNumberAt (Split '\n' file.Patch) j = (N : Int) + (i : Nat) ∧
        CalculateDiffPosition file ((N : Int) + (i : Nat)) = (j : Int) + 1) ∧
    (∀ target : Int,
      target < N ∨ (N : Int) + (rest.countP isContentLine : Nat) ≤ target →
      CalculateDiffPosition file target = -1) := by
  have hk : 0 < rest.countP isContentLine → N ≤ 9223372036854775807 := by
    intro h; omega
  have hhdr : isHunkHeader hdr = true := by
    rcases hform with h | h
    · rw [h]; exact isHunkHeader_long a b N M
    · rw [h]; exact isHunkHeader_short a N
  have hnc : isContentLine hdr = false :=
    startsWith_two_at_not_content hdr (by simpa [isHunkHeader] using hhdr)
  have hcl : isCountedLine hdr = true := by simp [isCountedLine, hhdr]
  by_cases hzero : rest.countP isContentLine = 0
  · -- no context or addition line at all
    constructor
    · intro i hi
      omega
    · intro target _
      have hno : ∀ line ∈ Split '\n' file.Patch, isContentLine line = false := by
        rw [hsplit]
        intro line hl
        rcases List.mem_cons.1 hl with h | h
        · rw [h]; exact hnc
        · have := List.countP_eq_zero.1 hzero line h
          simpa using this
      rcases calc_spec file target with ⟨h, _⟩ | ⟨j, hfirst, _⟩
      · exact h
      · obtain ⟨line, hl, hc, _⟩ := hfirst.1
        rw [hno line (List.mem_iff_getElem?.2 ⟨j, hl⟩)] at hc
        exact Bool.noConfusion hc
  · have hN' : N ≤ 9223372036854775807 := hk (Nat.pos_of_ne_zero hzero)
    have hparse : parseHunkHeader hdr = N := by
      rcases hform with h | h
      · rw [h]; exact parseHunkHeader_long a b N M hN'
      · rw [h]; exact parseHunkHeader_short a N hN'
    have hstep : stepLineNumber 0 hdr = (N : Int) - 1 := by
      have hpos : (0 : Int) < N := by exact_mod_cast hN
      simp [stepLineNumber, hhdr, hparse, hpos]
    have hloop : ∀ target, CalculateDiffPosition file target =
        CalculateDiffPosition.loop target rest 1 ((N : Int) - 1) := by
      intro target
      have hne : ¬ (isContentLine hdr = true ∧ stepLineNumber 0 hdr = target) := by
        rintro ⟨h, _⟩
        rw [hnc] at h
        exact Bool.noConfusion h
      rw [calc_eq_loop, hsplit, calc_loop_cons, if_neg hne, hstep, hcl]
      simp
    obtain ⟨h1, h2⟩ := calc_loop_hunk_body rest 1 ((N : Int) - 1) hrest (by omega)
      (by omega)
    constructor
    · intro i hi
      obtain ⟨j, line, hl, hc, hcount, hnum, hres⟩ := h1 i hi
      refine ⟨j + 1, line, by rw [hsplit]; simpa using hl, hc, ?_, ?_, ?_⟩
      · rw [hsplit, List.take_succ_cons, List.countP_cons, hcount, hnc]
        simp
      · unfold lineNumberAt
        rw [hsplit, List.take_succ_cons]
        have : lineNumberFrom 0 (hdr :: rest.take (j + 1)) =
            lineNumberFrom ((N : Int) - 1) (rest.take (j + 1)) := by
          simp [lineNumberFrom, hstep]
        rw [this, hnum]
        ring
      · have e : (N : Int) + (i : Nat) = (N : Int) - 1 + 1 + (i : Nat) := by ring
        rw [hloop, e, hres]
        push_cast
        ring
    · intro target ht
      rw [hloop]
      exact h2 target (by omega)

/-- C5 amended, at a concrete input: the patch
`@@ -1,2 +1,1 @@\n-old line\n context`, whose only context line is new-file
line 1 and is found at position 3. -/
theorem C5_single_hunk_line_numbers_witness :
    ((∀ i, i < deletionExampleBody.countP isContentLine →
      ∃ j line, (Split '\n' deletionExample.Patch)[j]? = some line ∧
        isContentLine line = true ∧
        ((Split '\n' deletionExample.Patch).take j).countP isContentLine = i ∧
        lineNumberAt (Split '\n' deletionExample.Patch) j = ((1 : Nat) : Int) + (i : Nat) ∧
        CalculateDiffPosition deletionExample (((1 : Nat) : Int) + (i : Nat)) = (j : Int) + 1) ∧
    (∀ target : Int,
      target < (1 : Nat) ∨
        ((1 : Nat) : Int) + (deletionExampleBody.countP isContentLine : Nat) ≤ target →
      CalculateDiffPosition deletionExample target = -1)) ∧
    CalculateDiffPosition deletionExample 1 = 3 :=
  ⟨C5_single_hunk_line_numbers deletionExample (hunkHeaderLong 1 2 1 1) deletionExampleBody
    1 2 1 1 (Or.inl rfl) (by decide) (by decide) (by decide) (by decide), by decide⟩

/-- C6 as stated fails: on a patch whose two hunks both start at new-file
line 1, `GetChangedLines` is `[1, 1]` and both entries map to position 2, so
the positions are not strictly increasing. -/
theorem C6_positions_increasing_counterexample :
    GetChangedLines overlappingHunks = [1, 1] ∧
      ¬ List.Pairwise (· < ·)
        ((GetChangedLines overlappingHunks).map (CalculateDiffPosition overlappingHunks)) := by
  decide

/-- C6, amended. For every patch in which no two context-or-addition lines
receive the same new-file line number, the positions
`CalculateDiffPosition P l` of the entries `l` of `GetChangedLines P`, taken
in encounter order, are strictly increasing. -/
theorem C6_positions_increasing_of_distinct (file : CommitFile)
    (hd : (contentLineNumbers (Split '\n' file.Patch)).Nodup) :
    List.Pairwise (· < ·) ((GetChangedLines file).map (CalculateDiffPosition file)) := by
  have hcontent : ∀ j ∈ additionIndices (Split '\n' file.Patch),
      j ∈ contentIndices (Split '\n' file.Patch) := by
    intro j hj
    obtain ⟨line, hl, ha⟩ := (mem_additionIndices _ _).1 hj
    exact (mem_contentIndices _ _).2 ⟨line, hl, isAddition_isContent line ha⟩
  have hmap : (GetChangedLines file).map (CalculateDiffPosition file) =
      (additionIndices (Split '\n' file.Patch)).map
        (fun j => (countedThrough (Split '\n' file.Patch) j : Int)) := by
    rw [changed_eq_map, List.map_map]
    apply List.map_congr_left
    intro j hj
    exact calc_of_distinct file hd j (hcontent j hj)
  rw [hmap, List.pairwise_map]
  refine List.Pairwise.imp_of_mem ?_ (additionIndices_pairwise _)
  intro i j _ hj hij
  obtain ⟨line, hl, ha⟩ := (mem_additionIndices _ _).1 hj
  have hc : isCountedLine line = true := by
    simp [isCountedLine, isAddition_isContent line ha]
  exact_mod_cast countedThrough_lt _ i j hij line hl hc

/-- C6 amended, at a concrete input: the patch
`@@ -1,2 +1,3 @@\n a\n+b\n c\n@@ -10,2 +11,3 @@\n x\n+y\n-z\n+w` numbers its
content lines 1, 2, 3, 11, 12, 13, its changed lines are 2, 12 and 13, and
their positions 3, 7 and 9 increase strictly. -/
theorem C6_positions_increasing_of_distinct_witness :
    contentLineNumbers (Split '\n' twoHunkAdditions.Patch) = [1, 2, 3, 11, 12, 13] ∧
      GetChangedLines twoHunkAdditions = [2, 12, 13] ∧
      (GetChangedLines twoHunkAdditions).map (CalculateDiffPosition twoHunkAdditions) =
        [3, 7, 9] ∧
      List.Pairwise (· < ·)
        ((GetChangedLines twoHunkAdditions).map (CalculateDiffPosition twoHunkAdditions)) :=
  ⟨by decide, by decide, by decide,
    C6_positions_increasing_of_distinct twoHunkAdditions (by decide)⟩

/-- C7 as stated fails.  In the patch `@@ -1 +9223372036854775807 @@\n+a\n+b`
the line `+b` follows one addition line of its hunk, so the claim gives it the
hunk start plus one, `2 ^ 63`; the code returns `-9223372036854775808`.  In
the patch `@@ -1 +5 @@\n+a\n@@ -1,3 +0,0 @@\n+b` the line `+b` is the first
line of a hunk whose start is 0, so the claim gives it 0; the code returns
6, because a header whose start is not positive does not restart the
counter. -/
theorem C7_changed_lines_counterexample :
    (Split '\n' overflowingHunk.Patch =
        ["@@ -1 +9223372036854775807 @@".toList, "+a".toList, "+b".toList] ∧
      parseHunkHeader "@@ -1 +9223372036854775807 @@".toList = 9223372036854775807 ∧
      GetChangedLines overflowingHunk = [9223372036854775807, -9223372036854775808] ∧
      parseHunkHeader "@@ -1 +9223372036854775807 @@".toList +
          (["+a".toList].countP isContentLine : Nat) ≠ -9223372036854775808) ∧
    (Split '\n' restartAtZero.Patch =
        ["@@ -1 +5 @@".toList, "+a".toList, zeroStartHeader, "+b".toList] ∧
      isHunkHeader zeroStartHeader = true ∧
      parseHunkHeader zeroStartHeader = 0 ∧
      GetChangedLines restartAtZero = [5, 6] ∧
      parseHunkHeader zeroStartHeader +
          (([] : List GoString).countP isContentLine : Nat) ≠ 6) := by
  decide

/-- C7, amended. `GetChangedLines` returns, in patch order, exactly one entry
per addition line (a line beginning with `+`), namely the new-file line number
that line receives; context lines, deletion lines and hunk headers contribute
nothing.  So the result is as long as the patch has addition lines, and the
empty patch gives the empty sequence.  For an addition line below a hunk
header whose start parses to a positive number, with no other such header in
between (a header whose start is not positive does not restart the count),
the number is that header's start plus the number of context and addition
lines between the header and the line, computed in Go's 64-bit `int`
arithmetic; it is the plain sum whenever that sum is below `2 ^ 63`. -/
theorem C7_changed_lines_are_addition_lines (file : CommitFile) :
    GetChangedLines file =
      (additionIndices (Split '\n' file.Patch)).map (lineNumberAt (Split '\n' file.Patch)) ∧
    (∀ j, j ∈ additionIndices (Split '\n' file.Patch) ↔
      ∃ line, (Split '\n' file.Patch)[j]? = some line ∧ isAdditionLine line = true) ∧
    (additionIndices (Split '\n' file.Patch)).Pairwise (· < ·) ∧
    (GetChangedLines file).length = (Split '\n' file.Patch).countP isAdditionLine ∧
    (file.Patch = [] → GetChangedLines file = []) ∧
    (∀ (pre : List GoString) (hdr : GoString) (mid : List GoString) (line : GoString)
        (post : List GoString),
      Split '\n' file.Patch = pre ++ hdr :: (mid ++ line :: post) →
      isHunkHeader hdr = true → 0 < parseHunkHeader hdr →
      (∀ h ∈ mid, isHunkHeader h = true → parseHunkHeader h ≤ 0) →
      isAdditionLine line = true →
      lineNumberAt (Split '\n' file.Patch) (pre.length + 1 + mid.length) =
          wrapInt64 (parseHunkHeader hdr + (mid.countP isContentLine : Nat)) ∧
        (parseHunkHeader hdr + (mid.countP isContentLine : Nat) < 9223372036854775808 →
          lineNumberAt (Split '\n' file.Patch) (pre.length + 1 + mid.length) =
            parseHunkHeader hdr + (mid.countP isContentLine : Nat))) := by
  refine ⟨changed_eq_map file, mem_additionIndices _, additionIndices_pairwise _, ?_, ?_, ?_⟩
  · rw [changed_eq_loop, changed_loop_length]
    simp
  · intro h
    simp [GetChangedLines, h]
  · intro pre hdr mid line post hsplit hh hpos hmid hadd
    have key := lineNumberAt_in_hunk pre hdr mid line post hh hpos hmid
      (isAddition_isContent line hadd)
    rw [hsplit]
    refine ⟨key, ?_⟩
    intro hlt
    rw [key]
    exact wrapInt64_of_range _ (by omega) (by omega)

/-- C8. `IsLineInDiff file line` is true if and only if `line` occurs in
`GetChangedLines file`. -/
theorem C8_is_line_in_diff_iff_mem (file : CommitFile) (line : Int) :
    IsLineInDiff file line = true ↔ line ∈ GetChangedLines file := by
  unfold IsLineInDiff
  exact isLineInDiff_loop_iff line (GetChangedLines file)

/-- C9 as stated fails: with two PR files named `a.go`, the first adding line
1 and the second with an empty patch, a comment on `a.go` line 1 is dropped
although its path is the filename of a PR file on which its line is in the
diff. -/
theorem C9_filter_on_some_file_counterexample :
    (validateReview oneCommentReview duplicateFiles).1.FileComments ≠
      oneCommentReview.FileComments.filter (isPostableOnSomeFile duplicateFiles) := by
  decide

/-- C9, amended. After `validateReview` the review's `FileComments` is exactly
the input `FileComments` filtered, order preserved, to those comments whose
path is the filename of some PR file and whose line satisfies `IsLineInDiff`
on the last PR file with that filename; the decision, rationale, general
comments and summary are unchanged.  When the filenames of the PR files are
pairwise distinct, that is the filter to the comments whose path is the
filename of a PR file on which the line satisfies `IsLineInDiff`. -/
theorem C9_validate_filters_comments (review : ReviewResponse) (files : List CommitFile) :
    (validateReview review files).1.FileComments =
        review.FileComments.filter (isPostable files) ∧
      (validateReview review files).1.Decision = review.Decision ∧
      (validateReview review files).1.DecisionRationale = review.DecisionRationale ∧
      (validateReview review files).1.GeneralComments = review.GeneralComments ∧
      (validateReview review files).1.Summary = review.Summary ∧
      ((files.map CommitFile.Filename).Nodup →
        (validateReview review files).1.FileComments =
          review.FileComments.filter (isPostableOnSomeFile files)) := by
  have h : (validateReview review files).1.FileComments =
      review.FileComments.filter (isPostable files) := by
    simp [validateReview, validate_loop_spec]
  refine ⟨h, rfl, rfl, rfl, rfl, ?_⟩
  intro hd
  rw [h]
  apply List.filter_congr
  intro c _
  exact isPostable_eq_of_nodup files c hd

/-- C10. `validateReview` collects exactly one warning per dropped comment, in
input order, so that kept comments and warnings together number the input
comments; it returns a non-nil error if and only if at least one comment was
dropped.  The warning for a comment whose path `p` matches no PR file is
`comment references non-existent file: p`; for a comment on an existing path
`p` whose line `n` is not among the changed lines it is
`comment references line not in diff: p:n`. -/
theorem C10_one_warning_per_dropped_comment (review : ReviewResponse)
    (files : List CommitFile) :
    (validateReview review files).1.FileComments =
        review.FileComments.filter (isPostable files) ∧
      validationWarnings review files =
        (review.FileComments.filter (fun c => !isPostable files c)).map (warningFor files) ∧
      (validateReview review files).1.FileComments.length +
          (validationWarnings review files).length = review.FileComments.length ∧
      ((validateReview review files).2.isSome = true ↔
        ∃ c ∈ review.FileComments, isPostable files c = false) ∧
      (∀ c : FileComment, (∀ file ∈ files, file.Filename ≠ c.Path) →
        warningFor files c = "comment references non-existent file: ".toList ++ c.Path) ∧
      (∀ c : FileComment, (∃ file ∈ files, file.Filename = c.Path) →
        warningFor files c =
          "comment references line not in diff: ".toList ++ c.Path ++ [':'] ++
            formatInt c.Line) ∧
      validationWarnings mixedReview [examplePatch] =
        ["comment references non-existent file: missing.go".toList,
          "comment references line not in diff: a.go:7".toList] := by
  have hkept : (validateReview review files).1.FileComments =
      review.FileComments.filter (isPostable files) := by
    simp [validateReview, validate_loop_spec]
  have hwarn : validationWarnings review files =
      (review.FileComments.filter (fun c => !isPostable files c)).map (warningFor files) := by
    simp [validationWarnings, validate_loop_spec]
  refine ⟨hkept, hwarn, ?_, ?_, ?_, ?_, by decide⟩
  · rw [hkept, hwarn, List.length_map]
    induction review.FileComments with
    | nil => rfl
    | cons c cs ih =>
      by_cases hp : isPostable files c = true
      · simp only [List.filter_cons, hp, if_true, Bool.not_true, Bool.false_eq_true, if_false,
          List.length_cons]
        omega
      · have hp' : isPostable files c = false := by simpa using hp
        simp only [List.filter_cons, hp', Bool.false_eq_true, if_false, Bool.not_false, if_true,
          List.length_cons]
        omega
  · have herr : (validateReview review files).2.isSome = true ↔
        0 < (validationWarnings review files).length := by
      unfold validateReview validationWarnings
      simp only
      split <;> simp_all
    rw [herr, hwarn, List.length_map, List.length_pos_iff_exists_mem]
    constructor
    · rintro ⟨c, hc⟩
      rw [List.mem_filter] at hc
      exact ⟨c, hc.1, by simpa using hc.2⟩
    · rintro ⟨c, hc, hp⟩
      exact ⟨c, List.mem_filter.2 ⟨hc, by simp [hp]⟩⟩
  · intro c hno
    unfold warningFor
    rw [if_neg]
    intro hany
    obtain ⟨file, hf, hname⟩ := List.any_eq_true.1 hany
    exact hno file hf (by simpa using hname)
  · rintro c ⟨file, hf, hname⟩
    unfold warningFor
    rw [if_pos]
    exact List.any_eq_true.2 ⟨file, hf, by simpa using hname⟩

/-- C11 as stated fails: of the two PR files named `a.go`, the first gives
line 1 a position and the second has an empty patch; the comment on `a.go`
line 1 has a position on a PR file with its path, and yet `PostReview` submits
no inline comment. -/
theorem C11_inline_comments_counterexample :
    (oneCommentReview.FileComments.filter (hasPositionOnSomeFile duplicateFiles)).length = 1 ∧
      (PostReview.reviewRequest (fun s => s) oneCommentReview duplicateFiles).Comments = [] := by
  decide

/-- C11, amended. The inline comments `PostReview` submits are exactly, in
order, one (path, position, formatted body) entry for each file comment whose
path is the filename of a PR file and for which `CalculateDiffPosition` on the
last PR file with that filename is not `-1`, the position being that result.
Every other file comment is skipped and the review is submitted all the same:
the first call is `CreateReview` with these comments.  When the filenames of
the PR files are pairwise distinct, the file consulted is the PR file with the
comment's path. -/
theorem C11_inline_comments (host : Collaborators) (owner repo : GoString) (prNumber : Int)
    (review : ReviewResponse) (files : List CommitFile) :
    (PostReview.reviewRequest host.title review files).Comments =
        review.FileComments.filterMap (inlineComment host.title files) ∧
      (PostReview host owner repo prNumber review files).2.head? =
        some (HostCall.createReview owner repo prNumber
          (PostReview.reviewRequest host.title review files)) ∧
      ((files.map CommitFile.Filename).Nodup →
        ∀ comment : FileComment,
          inlineComment host.title files comment =
            match files.find? (fun file => decide (file.Filename = comment.Path)) with
            | some file =>
              if CalculateDiffPosition file comment.Line = -1 then none
              else some ⟨comment.Path, CalculateDiffPosition file comment.Line,
                formatFileComment host.title comment⟩
            | none => none) := by
  refine ⟨?_, ?_, ?_⟩
  · simp [PostReview.reviewRequest, post_commentLoop_spec]
  · unfold PostReview
    simp only
    split
    · split <;> rfl
    · rfl
  · intro hd comment
    unfold inlineComment
    rw [lastFileNamed_eq_find_of_nodup files comment.Path hd]

/-- C12. `mapDecisionToEvent` maps `approve` to `APPROVE`, `request_changes` to
`REQUEST_CHANGES`, and every other decision (`comment`, the empty string and
unrecognised values such as `reject` among them) to `COMMENT`; its result is
always one of these three events. -/
theorem C12_decision_maps_to_event :
    mapDecisionToEvent "approve".toList = "APPROVE".toList ∧
    mapDecisionToEvent "request_changes".toList = "REQUEST_CHANGES".toList ∧
    (∀ decision : GoString, decision ≠ "approve".toList →
      decision ≠ "request_changes".toList → mapDecisionToEvent decision = "COMMENT".toList) ∧
    mapDecisionToEvent "comment".toList = "COMMENT".toList ∧
    mapDecisionToEvent [] = "COMMENT".toList ∧
    mapDecisionToEvent "reject".toList = "COMMENT".toList ∧
    (∀ decision : GoString,
      mapDecisionToEvent decision = "APPROVE".toList ∨
      mapDecisionToEvent decision = "REQUEST_CHANGES".toList ∨
      mapDecisionToEvent decision = "COMMENT".toList) := by
  refine ⟨by decide, by decide, ?_, by decide, by decide, by decide, ?_⟩
  · intro d h1 h2
    have h1' : ¬ d = DecisionApprove := h1
    have h2' : ¬ d = DecisionRequestChanges := h2
    simp [mapDecisionToEvent, h1', h2']
  · intro d
    unfold mapDecisionToEvent
    split
    · exact Or.inl rfl
    · split
      · exact Or.inr (Or.inl rfl)
      · exact Or.inr (Or.inr rfl)

/-- C13. The outcome of `PostReview` as a function of the host's answers.  If
`CreateReview` succeeds, it returns `nil` and makes no other call.  If
`CreateReview` fails and the assembled body is non-empty, it posts that body
with `CreateIssueComment` and returns the result of that call.  If
`CreateReview` fails and the body is empty, it makes no other call and returns
the error of `CreateReview`. -/
theorem C13_post_review_outcome (host : Collaborators) (owner repo : GoString)
    (prNumber : Int) (review : ReviewResponse) (files : List CommitFile) :
    (host.createReview owner repo prNumber (PostReview.reviewRequest host.title review files) =
        none →
      PostReview host owner repo prNumber review files =
        (none, [HostCall.createReview owner repo prNumber
          (PostReview.reviewRequest host.title review files)])) ∧
    (∀ err : GoString,
      host.createReview owner repo prNumber (PostReview.reviewRequest host.title review files) =
        some err →
      PostReview.generalBody review ≠ [] →
      PostReview host owner repo prNumber review files =
        (host.createIssueComment owner repo prNumber (PostReview.generalBody review),
          [HostCall.createReview owner repo prNumber
            (PostReview.reviewRequest host.title review files),
           HostCall.createIssueComment owner repo prNumber (PostReview.generalBody review)])) ∧
    (∀ err : GoString,
      host.createReview owner repo prNumber (PostReview.reviewRequest host.title review files) =
        some err →
      PostReview.generalBody review = [] →
      PostReview host owner repo prNumber review files =
        (some err, [HostCall.createReview owner repo prNumber
          (PostReview.reviewRequest host.title review files)])) := by
  refine ⟨?_, ?_, ?_⟩
  · intro h
    simp [PostReview, h]
  · intro err h hne
    have hlen : (PostReview.generalBody review).length > 0 := List.length_pos.2 hne
    simp [PostReview, h, hlen]
  · intro err h he
    simp [PostReview, h, he]

/-- C14. For every review whose general comments all have a recognised
severity (info, warning, error), the body `PostReview` assembles is the
formatted general comments (severity indicator, then the comment's body) in
order, joined by two newlines, followed, when the summary is non-empty, by the
separator `\n\n---\n\n` (only when there is a general comment) and
`**Summary:** ` with the summary.  The body is empty exactly when there are no
general comments and the summary is empty; the request then carries no body,
and otherwise carries this one. -/
theorem C14_review_body (review : ReviewResponse) (title : GoString → GoString)
    (files : List CommitFile)
    (hsev : ∀ c ∈ review.GeneralComments,
      c.Severity = "info".toList ∨ c.Severity = "warning".toList ∨
        c.Severity = "error".toList) :
    PostReview.generalBody review =
        List.intercalate "\n\n".toList (review.GeneralComments.map formatGeneralComment) ++
          (if review.Summary = [] then []
           else (if review.GeneralComments = [] then [] else "\n\n---\n\n".toList) ++
             "**Summary:** ".toList ++ review.Summary) ∧
      (∀ c : GeneralComment, formatGeneralComment c = getSeverityEmoji c.Severity ++ c.Body) ∧
      (PostReview.generalBody review = [] ↔
        review.GeneralComments = [] ∧ review.Summary = []) ∧
      (PostReview.generalBody review = [] →
        (PostReview.reviewRequest title review files).Body = none) ∧
      (PostReview.generalBody review ≠ [] →
        (PostReview.reviewRequest title review files).Body =
          some (PostReview.generalBody review)) := by
  have hloop := post_generalLoop_eq_intercalate review.GeneralComments hsev
  have hnil := post_generalLoop_eq_nil_iff review.GeneralComments hsev
  have hbody : PostReview.generalBody review =
      List.intercalate "\n\n".toList (review.GeneralComments.map formatGeneralComment) ++
        (if review.Summary = [] then []
         else (if review.GeneralComments = [] then [] else "\n\n---\n\n".toList) ++
           "**Summary:** ".toList ++ review.Summary) := by
    unfold PostReview.generalBody
    simp only
    by_cases hs : review.Summary = []
    · simp [hs, hloop]
    · by_cases hg : review.GeneralComments = []
      · have h0 : PostReview.generalLoop review.GeneralComments [] = [] := hnil.2 hg
        simp [hs, hg, PostReview.generalLoop, List.intercalate]
      · have h0 : PostReview.generalLoop review.GeneralComments [] ≠ [] := fun h => hg (hnil.1 h)
        have hlen : (PostReview.generalLoop review.GeneralComments []).length > 0 :=
          List.length_pos.2 h0
        simp only [hs, hg, hlen, if_true, if_false, ne_eq, not_false_eq_true]
        rw [hloop]
        simp
  refine ⟨hbody, fun _ => rfl, ?_, ?_, ?_⟩
  · constructor
    · intro h
      unfold PostReview.generalBody at h
      simp only at h
      by_cases hs : review.Summary = []
      · simp only [hs, ne_eq, not_true_eq_false, if_false] at h
        exact ⟨hnil.1 h, hs⟩
      · simp only [hs, ne_eq, not_false_eq_true, if_true] at h
        have := congrArg List.length h
        simp at this
    · rintro ⟨hg, hs⟩
      rw [hbody, hg, hs]
      rfl
  · intro h
    simp [PostReview.reviewRequest, h]
  · intro h
    have hlen : (PostReview.generalBody review).length > 0 := List.length_pos.2 h
    simp [PostReview.reviewRequest, hlen]

/-- C14, at a concrete input: a review with an info comment, an error comment
and a summary. -/
theorem C14_review_body_witness :
    PostReview.generalBody twoNotesReview =
        List.intercalate "\n\n".toList (twoNotesReview.GeneralComments.map formatGeneralComment) ++
          (if twoNotesReview.Summary = [] then []
           else (if twoNotesReview.GeneralComments = [] then [] else "\n\n---\n\n".toList) ++
             "**Summary:** ".toList ++ twoNotesReview.Summary) ∧
      (∀ c : GeneralComment, formatGeneralComment c = getSeverityEmoji c.Severity ++ c.Body) ∧
      (PostReview.generalBody twoNotesReview = [] ↔
        twoNotesReview.GeneralComments = [] ∧ twoNotesReview.Summary = []) ∧
      (PostReview.generalBody twoNotesReview = [] →
        (PostReview.reviewRequest (fun s => s) twoNotesReview []).Body = none) ∧
      (PostReview.generalBody twoNotesReview ≠ [] →
        (PostReview.reviewRequest (fun s => s) twoNotesReview []).Body =
          some (PostReview.generalBody twoNotesReview)) :=
  C14_review_body twoNotesReview (fun s => s) [] (by decide)

/-- C15. `validateReviewResponse` accepts a parsed review if and only if its
decision is one of approve, request_changes, comment, every general comment's
severity is one of info, warning, error, and every file comment has a
non-empty path, a line of at least 1, such a severity and a type among bug,
style, performance, security, maintainability.  Any other review is rejected
with an error, as the review with decision `reject` is; the function only
reads the review, so nothing is coerced. -/
theorem C15_validate_review_response (review : ReviewResponse) :
    (validateReviewResponse review = none ↔ IsValidReview review) ∧
    (¬ IsValidReview review → ∃ err, validateReviewResponse review = some err) ∧
    validateReviewResponse rejectDecisionReview = some "invalid decision: reject".toList := by
  have hiff : validateReviewResponse review = none ↔ IsValidReview review := by
    unfold validateReviewResponse IsValidReview
    by_cases hd : review.Decision = DecisionApprove ∨ review.Decision = DecisionRequestChanges ∨
        review.Decision = DecisionComment
    · rw [if_pos hd]
      cases hg : validateReviewResponse.generalLoop 0 review.GeneralComments with
      | some err =>
        have := (validate_generalLoop_eq_none review.GeneralComments 0).not.1 (by simp [hg])
        simp only [validateSeverity_eq_none] at this
        constructor
        · intro h; exact absurd h (by simp)
        · rintro ⟨_, h, _⟩
          exact absurd h this
      | none =>
        have hg' := (validate_generalLoop_eq_none review.GeneralComments 0).1 hg
        simp only [validateSeverity_eq_none] at hg'
        simp only [validate_fileLoop_eq_none, validateSeverity_eq_none,
          validateCommentType_eq_none]
        constructor
        · intro h; exact ⟨hd, hg', h⟩
        · rintro ⟨_, _, h⟩; exact h
    · rw [if_neg hd]
      constructor
      · intro h; exact absurd h (by simp)
      · rintro ⟨h, _⟩; exact absurd h hd
  refine ⟨hiff, ?_, by decide⟩
  intro hinv
  cases hv : validateReviewResponse review with
  | none => exact absurd (hiff.1 hv) hinv
  | some err => exact ⟨err, rfl⟩

/-- C16. With the collaborators as functions that succeed or fail, `ReviewPR`
fails if and only if fetching the PR files fails, or the file list is
non-empty and building the context, the LLM call or `PostReview` (in this
order, each reached only when the ones before succeeded) fails.  An empty file
list gives success with no call beyond the fetch.  Once the LLM has answered,
the calls are those of `PostReview` on the review as filtered by
`validateReview`, and `ReviewPR` succeeds whenever that `PostReview` does,
whatever warnings `validateReview` returned.  The context builder is a
parameter here; the statement holds for every answer it may give. -/
theorem C16_review_pr_outcome (host : Collaborators) (owner repo : GoString)
    (prNumber : Int) :
    ((ReviewPR host owner repo prNumber).1.isSome = true ↔
      (∃ err, host.getPRFiles owner repo prNumber = Except.error err) ∨
      (∃ files, host.getPRFiles owner repo prNumber = Except.ok files ∧ files ≠ [] ∧
        ((∃ err, host.buildContext files = Except.error err) ∨
          (∃ context, host.buildContext files = Except.ok context ∧
            ((∃ err, host.reviewCode context = Except.error err) ∨
              (∃ review, host.reviewCode context = Except.ok review ∧
                (PostReview host owner repo prNumber (validateReview review files).1
                  files).1.isSome = true)))))) ∧
    (host.getPRFiles owner repo prNumber = Except.ok [] →
      ReviewPR host owner repo prNumber = (none, [HostCall.getPRFiles owner repo prNumber])) ∧
    (∀ (files : List CommitFile) (context : GoString) (review : ReviewResponse),
      host.getPRFiles owner repo prNumber = Except.ok files → files ≠ [] →
      host.buildContext files = Except.ok context →
      host.reviewCode context = Except.ok review →
      (ReviewPR host owner repo prNumber).2 =
          [HostCall.getPRFiles owner repo prNumber, HostCall.buildContext files,
            HostCall.reviewCode context] ++
            (PostReview host owner repo prNumber (validateReview review files).1 files).2 ∧
        ((PostReview host owner repo prNumber (validateReview review files).1 files).1 = none →
          (ReviewPR host owner repo prNumber).1 = none)) := by
  refine ⟨?_, ?_, ?_⟩
  · cases h1 : host.getPRFiles owner repo prNumber with
    | error err =>
      have hv : (ReviewPR host owner repo prNumber).1.isSome = true := by
        simp [ReviewPR, h1]
      simp [hv]
    | ok files =>
      have hinj : ∀ fs, Except.ok files = (Except.ok fs : Except GoString (List CommitFile)) →
          fs = files := by
        intro fs h
        injection h with h
        exact h.symm
      by_cases hf : files = []
      · have hv : (ReviewPR host owner repo prNumber).1.isSome = false := by
          simp [ReviewPR, h1, hf]
        rw [hv]
        constructor
        · intro h; exact Bool.noConfusion h
        · rintro (⟨err, h⟩ | ⟨fs, h, hne, _⟩)
          · exact Except.noConfusion h
          · exact absurd (by rw [hinj fs h]; exact hf) hne
      · have hlen : ¬ files.length = 0 := fun h => hf (List.length_eq_zero.1 h)
        cases h2 : host.buildContext files with
        | error err =>
          have hv : (ReviewPR host owner repo prNumber).1.isSome = true := by
            simp [ReviewPR, h1, hlen, h2]
          rw [hv]
          exact ⟨fun _ => Or.inr ⟨files, rfl, hf, Or.inl ⟨err, h2⟩⟩, fun _ => rfl⟩
        | ok context =>
          cases h3 : host.reviewCode context with
          | error err =>
            have hv : (ReviewPR host owner repo prNumber).1.isSome = true := by
              simp [ReviewPR, h1, hlen, h2, h3]
            rw [hv]
            exact ⟨fun _ => Or.inr ⟨files, rfl, hf, Or.inr ⟨context, h2, Or.inl ⟨err, h3⟩⟩⟩,
              fun _ => rfl⟩
          | ok review =>
            have hv : (ReviewPR host owner repo prNumber).1.isSome =
                (PostReview host owner repo prNumber (validateReview review files).1
                  files).1.isSome := by
              simp only [ReviewPR, h1, hlen, if_false, h2, h3]
              cases (PostReview host owner repo prNumber (validateReview review files).1
                files).1 <;> rfl
            rw [hv]
            constructor
            · intro h
              exact Or.inr ⟨files, rfl, hf, Or.inr ⟨context, h2, Or.inr ⟨review, h3, h⟩⟩⟩
            · rintro (⟨err, h⟩ | ⟨fs, h, _, hrest⟩)
              · exact Except.noConfusion h
              · have hfs := hinj fs h
                subst hfs
                rcases hrest with ⟨err, h⟩ | ⟨ctx, hctx, hrest⟩
                · rw [h2] at h
                  exact Except.noConfusion h
                · rw [h2] at hctx
                  injection hctx with hctx
                  subst hctx
                  rcases hrest with ⟨err, h⟩ | ⟨rv, hrv, hpost⟩
                  · rw [h3] at h
                    exact Except.noConfusion h
                  · rw [h3] at hrv
                    injection hrv with hrv
                    subst hrv
                    exact hpost
  · intro h
    simp [ReviewPR, h]
  · intro files context review h1 hf h2 h3
    have hlen : ¬ files.length = 0 := fun h => hf (List.length_eq_zero.1 h)
    unfold ReviewPR
    simp only [h1, hlen, if_false, h2, h3]
    cases h4 : (PostReview host owner repo prNumber (validateReview review files).1 files).1 with
    | none => simp
    | some err => simp

/-- C17. `HasBlockingIssues` returns true if and only if the decision is
`request_changes` or some general comment or file comment has severity
`error`; whenever it returns false, `GetErrorComments` returns no comment. -/
theorem C17_blocking_issues (r : ReviewResponse) :
    (HasBlockingIssues r = true ↔
      r.Decision = "request_changes".toList ∨
      (∃ c ∈ r.GeneralComments, c.Severity = "error".toList) ∨
      (∃ c ∈ r.FileComments, c.Severity = "error".toList)) ∧
    (HasBlockingIssues r = false → GetErrorComments r = []) := by
  have hiff : HasBlockingIssues r = true ↔
      r.Decision = DecisionRequestChanges ∨
      (∃ c ∈ r.GeneralComments, c.Severity = SeverityError) ∨
      (∃ c ∈ r.FileComments, c.Severity = SeverityError) := by
    rw [← hasBlocking_generalLoop_iff, ← hasBlocking_fileLoop_iff]
    unfold HasBlockingIssues IsBlockingDecision
    by_cases h1 : r.Decision = DecisionRequestChanges
    · simp [h1]
    · by_cases h2 : HasBlockingIssues.generalLoop r.GeneralComments = true
      · simp [h1, h2]
      · by_cases h3 : HasBlockingIssues.fileLoop r.FileComments = true
        · simp [h1, h2, h3]
        · simp [h1, h2, h3]
  refine ⟨hiff, ?_⟩
  intro hfalse
  have hno : ¬ ∃ c ∈ r.FileComments, c.Severity = SeverityError := by
    intro h
    have := hiff.2 (Or.inr (Or.inr h))
    rw [hfalse] at this
    exact Bool.noConfusion this
  unfold GetErrorComments
  rw [getErrorComments_loop_spec, List.nil_append, List.filter_eq_nil_iff]
  intro c hc hce
  exact hno ⟨c, hc, by simpa [IsError] using hce⟩

/-- C18. Inserting a line `d` that begins with `-` anywhere in a patch (`pre`
are the lines before the insertion point, `post` those after it) leaves
`GetChangedLines` unchanged, leaves `CalculateDiffPosition` unchanged for a
target whose first match lies before the insertion point, raises it by exactly
1 for a target whose first match lies after it, and keeps a target that is not
found not found.  A patch made of `d` alone gives the results of the empty
patch. -/
theorem C18_deletion_line_insertion (file file' : CommitFile) (pre post : List GoString)
    (d : GoString) (hd : isDeletionLine d = true)
    (hsplit : Split '\n' file.Patch = pre ++ post)
    (hsplit' : Split '\n' file'.Patch = pre ++ d :: post) :
    GetChangedLines file' = GetChangedLines file ∧
    (∀ (target : Int) (j : Nat), FirstMatchAt (Split '\n' file.Patch) j target →
      j < pre.length →
      CalculateDiffPosition file' target = CalculateDiffPosition file target) ∧
    (∀ (target : Int) (j : Nat), FirstMatchAt (Split '\n' file.Patch) j target →
      pre.length ≤ j →
      CalculateDiffPosition file' target = CalculateDiffPosition file target + 1) ∧
    (∀ target : Int, CalculateDiffPosition file target = -1 →
      CalculateDiffPosition file' target = -1) ∧
    (∀ single empty : CommitFile, empty.Patch = [] → Split '\n' single.Patch = [d] →
      (∀ target : Int,
        CalculateDiffPosition single target = CalculateDiffPosition empty target) ∧
      GetChangedLines single = GetChangedLines empty) := by
  obtain ⟨hc, hcl, ha, hstep⟩ := deletion_facts d hd
  refine ⟨?_, ?_, ?_, ?_, fun single empty he hs => lone_line_like_empty single empty d hc he hs⟩
  · rw [changed_eq_loop, changed_eq_loop, hsplit, hsplit']
    exact changed_loop_insert_neutral d ha hstep post pre 0 []
  · intro target j hfirst hj
    rw [hsplit] at hfirst
    rw [calc_eq_loop, calc_eq_loop, hsplit, hsplit']
    exact ((calc_loop_insert_counted d hc hcl hstep post target pre 0 0).2 j hfirst.1
      hfirst.2).1 hj
  · intro target j hfirst hj
    rw [hsplit] at hfirst
    rw [calc_eq_loop, calc_eq_loop, hsplit, hsplit']
    exact ((calc_loop_insert_counted d hc hcl hstep post target pre 0 0).2 j hfirst.1
      hfirst.2).2 hj
  · intro target hnot
    have hno := (calc_not_found_iff file target).1 hnot
    rw [hsplit] at hno
    rw [calc_eq_loop, hsplit']
    exact (calc_loop_insert_counted d hc hcl hstep post target pre 0 0).1 hno

/-- C18, at a concrete input: `-old` inserted after the second line of the
example patch.  Target 1 keeps position 2; target 2 moves from position 3 to
position 4. -/
theorem C18_deletion_line_insertion_witness :
    (GetChangedLines insertedDeletion = GetChangedLines examplePatch ∧
    (∀ (target : Int) (j : Nat), FirstMatchAt (Split '\n' examplePatch.Patch) j target →
      j < (List.take 2 (Split '\n' examplePatch.Patch)).length →
      CalculateDiffPosition insertedDeletion target = CalculateDiffPosition examplePatch target) ∧
    (∀ (target : Int) (j : Nat), FirstMatchAt (Split '\n' examplePatch.Patch) j target →
      (List.take 2 (Split '\n' examplePatch.Patch)).length ≤ j →
      CalculateDiffPosition insertedDeletion target =
        CalculateDiffPosition examplePatch target + 1) ∧
    (∀ target : Int, CalculateDiffPosition examplePatch target = -1 →
      CalculateDiffPosition insertedDeletion target = -1) ∧
    (∀ single empty : CommitFile, empty.Patch = [] →
      Split '\n' single.Patch = ["-old".toList] →
      (∀ target : Int,
        CalculateDiffPosition single target = CalculateDiffPosition empty target) ∧
      GetChangedLines single = GetChangedLines empty)) ∧
    CalculateDiffPosition examplePatch 1 = 2 ∧ CalculateDiffPosition insertedDeletion 1 = 2 ∧
    CalculateDiffPosition examplePatch 2 = 3 ∧ CalculateDiffPosition insertedDeletion 2 = 4 :=
  ⟨C18_deletion_line_insertion examplePatch insertedDeletion
    (List.take 2 (Split '\n' examplePatch.Patch)) (List.drop 2 (Split '\n' examplePatch.Patch))
    "-old".toList (by decide) (by decide) (by decide), by decide, by decide, by decide, by decide⟩

/-- C19. A line that begins with none of `@@`, a space, `+`, `-` (the empty
line and the `\ No newline at end of file` marker are such lines) touches no
counter: two patches that differ by one such line, inserted in the one or
removed from the other at any place, have the same `CalculateDiffPosition` for
every target and the same `GetChangedLines`; so have the patch made of such a
line alone and the empty patch. -/
theorem C19_other_line_touches_no_counter (file file' : CommitFile)
    (pre post : List GoString) (other : GoString)
    (hother : isCountedLine other = false)
    (hsplit : Split '\n' file.Patch = pre ++ post)
    (hsplit' : Split '\n' file'.Patch = pre ++ other :: post) :
    (∀ target : Int, CalculateDiffPosition file' target = CalculateDiffPosition file target) ∧
      GetChangedLines file' = GetChangedLines file ∧
      (isCountedLine other = false ↔
        startsWith other ['@', '@'] = false ∧ startsWith other [' '] = false ∧
          startsWith other ['+'] = false ∧ startsWith other ['-'] = false) ∧
      (∀ single empty : CommitFile, empty.Patch = [] → Split '\n' single.Patch = [other] →
        (∀ target : Int,
          CalculateDiffPosition single target = CalculateDiffPosition empty target) ∧
        GetChangedLines single = GetChangedLines empty) ∧
      isCountedLine [] = false ∧
      isCountedLine "\\ No newline at end of file".toList = false := by
  obtain ⟨_, hc, _, ha, hstep⟩ := uncounted_facts other hother
  refine ⟨?_, ?_, ?_,
    fun single empty he hs => lone_line_like_empty single empty other hc he hs,
    by decide, by decide⟩
  · intro target
    rw [calc_eq_loop, calc_eq_loop, hsplit, hsplit']
    exact calc_loop_insert_uncounted other hother post target pre 0 0
  · rw [changed_eq_loop, changed_eq_loop, hsplit, hsplit']
    exact changed_loop_insert_neutral other ha hstep post pre 0 []
  · simp [isCountedLine, isHunkHeader, isContentLine, isDeletionLine, and_assoc]

/-- C19, at a concrete input: the example patch with and without a trailing
`\ No newline at end of file` marker. -/
theorem C19_other_line_touches_no_counter_witness :
    (∀ target : Int,
      CalculateDiffPosition withNoNewlineMarker target =
        CalculateDiffPosition examplePatch target) ∧
      GetChangedLines withNoNewlineMarker = GetChangedLines examplePatch ∧
      (isCountedLine "\\ No newline at end of file".toList = false ↔
        startsWith "\\ No newline at end of file".toList ['@', '@'] = false ∧
          startsWith "\\ No newline at end of file".toList [' '] = false ∧
          startsWith "\\ No newline at end of file".toList ['+'] = false ∧
          startsWith "\\ No newline at end of file".toList ['-'] = false) ∧
      (∀ single empty : CommitFile, empty.Patch = [] →
        Split '\n' single.Patch = ["\\ No newline at end of file".toList] →
        (∀ target : Int,
          CalculateDiffPosition single target = CalculateDiffPosition empty target) ∧
        GetChangedLines single = GetChangedLines empty) ∧
      isCountedLine [] = false ∧
      isCountedLine "\\ No newline at end of file".toList = false :=
  C19_other_line_touches_no_counter examplePatch withNoNewlineMarker
    (Split '\n' examplePatch.Patch) [] "\\ No newline at end of file".toList
    (by decide) (by decide) (by decide)

/-- C20 as stated fails: the hunk header `@@ -1 +<tab>5 @@` has a third field
that is `+` followed by a tab, not by a decimal number, and yet the header
moves the counter (from 0 to 4), and removing it changes `GetChangedLines`
(from `[5]` to `[1]`): the scan skips white space before the number. -/
theorem C20_unparsed_header_counterexample :
    isHunkHeader tabbedHeader = true ∧
      (Split ' ' tabbedHeader)[2]? = some ('+' :: '\t' :: ['5']) ∧
      Char.isDigit '\t' = false ∧
      stepLineNumber 0 tabbedHeader = 4 ∧
      GetChangedLines tabbedHeaderPatch = [5] ∧
      GetChangedLines headerlessPatch = [1] := by
  decide

/-- C20, amended. A hunk header has a parsed start of 0 when it has fewer than
three space-separated fields, when its third field does not start with `+`,
or when in its third field no decimal digit follows the `+` once white space
and one optional sign have been skipped; `@@ -1,3 +0,0 @@` has start 0.
A hunk header whose parsed start is not positive leaves the new-file line
counter unchanged while consuming one position: the numbering of the lines
that follow is the same as without it, `CalculateDiffPosition` gives the same
result as when a deletion line stands in its place, and removing it does not
change `GetChangedLines` (also when it is the only line of the patch). -/
theorem C20_unparsed_header_counts_like_deletion (h : GoString)
    (hh : isHunkHeader h = true) :
    ((Split ' ' h).length < 3 → parseHunkHeader h = 0) ∧
    (∀ third : GoString, (Split ' ' h)[2]? = some third → startsWith third ['+'] = false →
      parseHunkHeader h = 0) ∧
    (∀ rest : GoString, (Split ' ' h)[2]? = some ('+' :: rest) →
      (∀ c ∈ (afterSpaceAndSign rest).head?, c.isDigit = false) → parseHunkHeader h = 0) ∧
    parseHunkHeader zeroStartHeader = 0 ∧
    (parseHunkHeader h ≤ 0 →
      (∀ n : Int, stepLineNumber n h = n) ∧
      (∀ (start : Int) (pre post : List GoString),
        lineNumberFrom start (pre ++ h :: post) = lineNumberFrom start (pre ++ post)) ∧
      isCountedLine h = true ∧
      (∀ (d : GoString) (file file' : CommitFile) (pre post : List GoString),
        isDeletionLine d = true →
        Split '\n' file.Patch = pre ++ h :: post →
        Split '\n' file'.Patch = pre ++ d :: post →
        ∀ target : Int,
          CalculateDiffPosition file target = CalculateDiffPosition file' target) ∧
      (∀ (file file' : CommitFile) (pre post : List GoString),
        Split '\n' file.Patch = pre ++ h :: post →
        Split '\n' file'.Patch = pre ++ post →
        GetChangedLines file = GetChangedLines file') ∧
      (∀ single empty : CommitFile, empty.Patch = [] → Split '\n' single.Patch = [h] →
        GetChangedLines single = GetChangedLines empty)) := by
  refine ⟨?_, ?_, ?_, by decide, ?_⟩
  · intro hlen
    simp [parseHunkHeader, hlen]
  · intro third h3 hplus
    have hlen : ¬ (Split ' ' h).length < 3 := by
      have := (List.getElem?_eq_some_iff.1 h3).1
      omega
    have hget : (Split ' ' h).getD 2 [] = third := by
      simp [List.getD_eq_getElem?_getD, h3]
    simp only [parseHunkHeader, hlen, if_false, hget, hplus, Bool.not_false, if_true]
  · intro rest h3 hno
    have hlen : ¬ (Split ' ' h).length < 3 := by
      have := (List.getElem?_eq_some_iff.1 h3).1
      omega
    have hget : (Split ' ' h).getD 2 [] = '+' :: rest := by
      simp [List.getD_eq_getElem?_getD, h3]
    have hplus : startsWith ('+' :: rest) ['+'] = true := by
      simp [startsWith, List.isPrefixOf]
    simp only [parseHunkHeader, hlen, if_false, hget, hplus, Bool.not_true, Bool.false_eq_true]
    exact sscanfPlusInt_no_digit rest hno
  · intro hparse
    obtain ⟨hc, hcl, ha, hstep⟩ := unparsed_header_facts h hh hparse
    refine ⟨hstep, ?_, hcl, ?_, ?_,
      fun single empty he hs => (lone_line_like_empty single empty h hc he hs).2⟩
    · intro start pre post
      rw [lineNumberFrom_append, lineNumberFrom_append]
      simp [lineNumberFrom, hstep]
    · intro d file file' pre post hd hs hs' target
      obtain ⟨hdc, hdcl, _, hdstep⟩ := deletion_facts d hd
      rw [calc_eq_loop, calc_eq_loop, hs, hs']
      exact calc_loop_replace h d post target (by rw [hc, hdc]) (by rw [hcl, hdcl])
        (fun n => by rw [hstep, hdstep]) pre 0 0
    · intro file file' pre post hs hs'
      rw [changed_eq_loop, changed_eq_loop, hs, hs']
      exact changed_loop_insert_neutral h ha hstep post pre 0 []

/-- C20 amended, at a concrete input: the header `@@ -1,3 +0,0 @@`. -/
theorem C20_unparsed_header_counts_like_deletion_witness :
    ((Split ' ' zeroStartHeader).length < 3 → parseHunkHeader zeroStartHeader = 0) ∧
    (∀ third : GoString, (Split ' ' zeroStartHeader)[2]? = some third →
      startsWith third ['+'] = false → parseHunkHeader zeroStartHeader = 0) ∧
    (∀ rest : GoString, (Split ' ' zeroStartHeader)[2]? = some ('+' :: rest) →
      (∀ c ∈ (afterSpaceAndSign rest).head?, c.isDigit = false) →
      parseHunkHeader zeroStartHeader = 0) ∧
    parseHunkHeader zeroStartHeader = 0 ∧
    (parseHunkHeader zeroStartHeader ≤ 0 →
      (∀ n : Int, stepLineNumber n zeroStartHeader = n) ∧
      (∀ (start : Int) (pre post : List GoString),
        lineNumberFrom start (pre ++ zeroStartHeader :: post) =
          lineNumberFrom start (pre ++ post)) ∧
      isCountedLine zeroStartHeader = true ∧
      (∀ (d : GoString) (file file' : CommitFile) (pre post : List GoString),
        isDeletionLine d = true →
        Split '\n' file.Patch = pre ++ zeroStartHeader :: post →
        Split '\n' file'.Patch = pre ++ d :: post →
        ∀ target : Int,
          CalculateDiffPosition file target = CalculateDiffPosition file' target) ∧
      (∀ (file file' : CommitFile) (pre post : List GoString),
        Split '\n' file.Patch = pre ++ zeroStartHeader :: post →
        Split '\n' file'.Patch = pre ++ post →
        GetChangedLines file = GetChangedLines file') ∧
      (∀ single empty : CommitFile, empty.Patch = [] →
        Split '\n' single.Patch = [zeroStartHeader] →
        GetChangedLines single = GetChangedLines empty)) :=
  C20_unparsed_header_counts_like_deletion zeroStartHeader (by decide)

/-- C21. Validator and poster agree: a line that `IsLineInDiff` accepts on a
file has a position on that file.  Hence, for a review filtered by
`validateReview` against a file list, `PostReview` on the same file list skips
no file comment: every file comment gives an inline comment, the request it
submits has exactly as many inline comments as the review has file comments,
and they carry the comments' paths in the same order. -/
theorem C21_validated_comments_are_all_posted (host : Collaborators) (owner repo : GoString)
    (prNumber : Int) (review : ReviewResponse) (files : List CommitFile) :
    (∀ (file : CommitFile) (line : Int),
      IsLineInDiff file line = true → CalculateDiffPosition file line ≠ -1) ∧
    (∀ c ∈ (validateReview review files).1.FileComments,
      ∃ entry, inlineComment host.title files c = some entry) ∧
    (PostReview.reviewRequest host.title (validateReview review files).1 files).Comments.length =
      (validateReview review files).1.FileComments.length ∧
    (PostReview.reviewRequest host.title (validateReview review files).1 files).Comments.map
        DraftReviewComment.Path =
      (validateReview review files).1.FileComments.map FileComment.Path ∧
    (PostReview host owner repo prNumber (validateReview review files).1 files).2.head? =
      some (HostCall.createReview owner repo prNumber
        (PostReview.reviewRequest host.title (validateReview review files).1 files)) := by
  have hpost : ∀ c ∈ (validateReview review files).1.FileComments,
      isPostable files c = true := by
    intro c hc
    rw [validated_fileComments, List.mem_filter] at hc
    exact hc.2
  have hsome : ∀ c ∈ (validateReview review files).1.FileComments,
      inlineComment host.title files c =
        some ((inlineComment host.title files c).getD ⟨c.Path, 0, []⟩) ∧
      ((inlineComment host.title files c).getD ⟨c.Path, 0, []⟩).Path = c.Path := by
    intro c hc
    obtain ⟨file, _, _, he⟩ := inlineComment_of_isPostable host.title files c (hpost c hc)
    rw [he]
    exact ⟨rfl, rfl⟩
  have hcomments :
      (PostReview.reviewRequest host.title (validateReview review files).1 files).Comments =
        (validateReview review files).1.FileComments.map
          (fun c => (inlineComment host.title files c).getD ⟨c.Path, 0, []⟩) := by
    have : (PostReview.reviewRequest host.title (validateReview review files).1 files).Comments =
        (validateReview review files).1.FileComments.filterMap
          (inlineComment host.title files) := by
      simp [PostReview.reviewRequest, post_commentLoop_spec]
    rw [this]
    exact filterMap_of_all_some _ _ _ (fun c hc => (hsome c hc).1)
  refine ⟨calc_of_isLineInDiff, ?_, ?_, ?_, ?_⟩
  · intro c hc
    exact ⟨_, (hsome c hc).1⟩
  · rw [hcomments, List.length_map]
  · rw [hcomments, List.map_map]
    apply List.map_congr_left
    intro c hc
    exact (hsome c hc).2
  · unfold PostReview
    simp only
    split
    · split <;> rfl
    · rfl

/-- C22. `validateReview` is idempotent: validating the already validated
review against the same file list leaves the review, and so its
`FileComments`, unchanged, collects no warning and returns `nil`. -/
theorem C22_validate_review_idempotent (review : ReviewResponse) (files : List CommitFile) :
    (validateReview (validateReview review files).1 files).1.FileComments =
        (validateReview review files).1.FileComments ∧
      (validateReview (validateReview review files).1 files).1 =
        (validateReview review files).1 ∧
      validationWarnings (validateReview review files).1 files = [] ∧
      (validateReview (validateReview review files).1 files).2 = none := by
  have hkeep : (validateReview review files).1.FileComments.filter (isPostable files) =
      (validateReview review files).1.FileComments := by
    rw [validated_fileComments, List.filter_filter]
    simp
  have hdrop : (validateReview review files).1.FileComments.filter
      (fun c => !isPostable files c) = [] := by
    rw [validated_fileComments, List.filter_filter, List.filter_eq_nil_iff]
    intro c _
    simp
  have hloop : validateReview.loop (buildFileMap files (fun _ => none))
      (validateReview review files).1.FileComments [] [] =
        ((validateReview review files).1.FileComments, []) := by
    rw [validate_loop_spec, hkeep, hdrop]
    rfl
  have h1 : (validateReview (validateReview review files).1 files).1 =
      (validateReview review files).1 := by
    unfold validateReview at hloop ⊢
    simp only at hloop ⊢
    rw [hloop]
  refine ⟨by rw [h1], h1, ?_, ?_⟩
  · unfold validationWarnings
    rw [hloop]
  · unfold validateReview at hloop ⊢
    simp only at hloop ⊢
    rw [hloop]
    rfl

/-- C23, on the code. For the action `reopened`, `ShouldProcessPREvent` is true
while `handlePullRequestEvent` returns at its guard without starting a review.
The handler starts a review exactly for `opened` and `synchronize`,
`ShouldProcessPREvent` is true exactly for `opened`, `synchronize` and
`reopened`, and the two agree on every action other than `reopened`. -/
theorem C23_handler_ignores_reopened :
    ShouldProcessPREvent "reopened".toList = true ∧
    handlePullRequestEvent "reopened".toList = false ∧
    (∀ action : GoString, handlePullRequestEvent action = true ↔
      (action = "opened".toList ∨ action = "synchronize".toList)) ∧
    (∀ action : GoString, ShouldProcessPREvent action = true ↔
      (action = "opened".toList ∨ action = "synchronize".toList ∨
        action = "reopened".toList)) ∧
    (∀ action : GoString, action ≠ "reopened".toList →
      handlePullRequestEvent action = ShouldProcessPREvent action) := by
  have hh : ∀ action : GoString, handlePullRequestEvent action = true ↔
      (action = "opened".toList ∨ action = "synchronize".toList) := by
    intro action
    unfold handlePullRequestEvent
    by_cases h1 : action = "opened".toList
    · simp [h1]
    · by_cases h2 : action = "synchronize".toList
      · simp [h2]
      · simp [h1, h2]
  have hs : ∀ action : GoString, ShouldProcessPREvent action = true ↔
      (action = "opened".toList ∨ action = "synchronize".toList ∨
        action = "reopened".toList) := by
    intro action
    unfold ShouldProcessPREvent
    split <;> simp_all
  refine ⟨by decide, by decide, hh, hs, ?_⟩
  intro action hne
  rw [Bool.eq_iff_iff, hh, hs]
  constructor
  · rintro (h | h)
    · exact Or.inl h
    · exact Or.inr (Or.inl h)
  · rintro (h | h | h)
    · exact Or.inl h
    · exact Or.inr h
    · exact absurd h hne

end MountainHawk
